import Mathlib

/-!
Verification of the playcanvas/observer core against its specification.

The development shallowly embeds the relevant source files:
  * `src/events.js`      — the event bus (`Events`), modelled in namespace `Ev`;
  * `src/history.js`     — the undo/redo action stack (`History`), namespace `Hist`;
  * `src/observer.ts`    — the path-addressable tree (`Observer`), namespace `Obs`;
  * `src/observer-sync.ts` — the patch synchronizer (`ObserverSync`), namespace `Sync`.

JavaScript values are modelled by the inductive `JVal` (numbers as `Int`; the
distinct JS values `null` and `undefined` are both representable).  Reference
equality of two *distinct, freshly produced* JS objects/arrays is modelled as
`false` (the observer code only ever compares caller-supplied fresh values with
stored copies, which are never the same reference).

Recursive operations of the observer are modelled as fuel-indexed functions
(`Nat` fuel, structurally decreasing) returning `Option` results; `none` means
the fuel ran out and never corresponds to any JS behaviour.  A JS `TypeError`
(e.g. dereferencing `undefined`) is modelled by `Except.error ()` inside the
`some` payload, so `some (.error ())` is a real thrown exception of the code.
Event emissions are collected into traces (`List Evt`); a trace entry records
one `emit` call made by the code, with live internal values rendered through
`json` when they appear as event payloads.
-/

/-- JSON-like JS value universe used by the observer: scalars, `null`,
`undefined`, ordered arrays, and keyed objects (field order significant). -/
inductive JVal : Type where
  | null
  | undef
  | bool (b : Bool)
  | num (n : Int)
  | str (s : String)
  | arr (xs : List JVal)
  | obj (fs : List (String × JVal))
deriving Repr

/-- JS strict equality `===` restricted to the way the observer uses it: value
equality on primitives, and `false` across two composite values, which in the
modelled call sites are always distinct fresh references. -/
def scalarEq : JVal → JVal → Bool
  | .null, .null => true
  | .undef, .undef => true
  | .bool a, .bool b => a == b
  | .num a, .num b => a == b
  | .str a, .str b => a == b
  | _, _ => false

/-- JS truthiness of a `JVal` (composites are always truthy). -/
def jsTruthy : JVal → Bool
  | .null => false
  | .undef => false
  | .bool b => b
  | .num n => n != 0
  | .str s => s != ""
  | _ => true

/-- Structural model of JS `path.split('.')` (kernel-computable, unlike
`String.splitOn`). -/
def splitAccum (sep : Char) : List Char → List Char → List String
  | [], acc => [String.mk acc.reverse]
  | c :: rest, acc =>
    if c = sep then String.mk acc.reverse :: splitAccum sep rest []
    else splitAccum sep rest (c :: acc)

def splitPath (s : String) : List String := splitAccum '.' s.data []

/-- Value of a non-empty all-digit character list (kernel-computable
replacement for `String.toNat?`). -/
def natOfDigits : List Char → Nat → Option Nat
  | [], acc => some acc
  | c :: rest, acc =>
    if c.isDigit then natOfDigits rest (acc * 10 + (c.toNat - 48)) else none

def strToNatQ (s : String) : Option Nat :=
  match s.data with
  | [] => none
  | l => natOfDigits l 0

namespace Ev

/-- Behaviour of one registered callback on the bus.  `plain throws` is an
ordinary listener whose body either returns or throws; `onceWrap` is the
wrapper closure installed by `Events.once` (src/events.js:71-77): it calls the
user callback (which may throw) and then unbinds itself via its handle. -/
inductive CB where
  | plain (throws : Bool)
  | onceWrap (throws : Bool) (name : String) (selfId : Nat)
deriving DecidableEq, Repr

/-- The `_events` map: event name to its listener list, in insertion order.
Listeners carry a `Nat` identity standing for the JS function reference. -/
abbrev Registry := List (String × List (Nat × CB))

def lookupReg : Registry → String → Option (List (Nat × CB))
  | [], _ => none
  | (n, l) :: rest, name => if n = name then some l else lookupReg rest name

def containsId (l : List (Nat × CB)) (id : Nat) : Bool :=
  l.any (fun e => e.1 == id)

/-- Remove the first listener with the given identity (JS `splice(i, 1)` at the
result of `indexOf`). -/
def removeFirst : List (Nat × CB) → Nat → List (Nat × CB)
  | [], _ => []
  | e :: rest, id => if e.1 = id then rest else e :: removeFirst rest id

/-- Model of `Events.unbind(name, fn)` (src/events.js:126-149, the two-argument
form used by `EventHandle.unbind`): if the name has no entry, nothing happens;
if the listener is absent, nothing happens; if it is the only listener the
whole key is deleted, otherwise just that listener is spliced out. -/
def unbindReg : Registry → String → Nat → Registry
  | [], _, _ => []
  | (n, l) :: rest, name, id =>
    if n = name then
      if containsId l id then
        if l.length = 1 then rest
        else (n, removeFirst l id) :: rest
      else (n, l) :: rest
    else (n, l) :: unbindReg rest name id

/-- State of one `Events` instance: listener registry, the `_suspendEvents`
flag, and the attached additional emitters (by identity). -/
structure EventsState where
  registry : Registry
  suspendEvents : Bool
  emitters : List Nat
deriving DecidableEq, Repr

/-- What `emit` returned: the bus itself (`return this`) or `undefined`
(the bare `return` on the suspended path, src/events.js:92). -/
inductive EmitRet where
  | self
  | undef
deriving DecidableEq, Repr

/-- Observable outcome of one `emit` call: its return value, the identities of
the user callbacks that were invoked (for a `once` wrapper this is the wrapped
user callback), and the additional emitters the event was forwarded to. -/
structure EmitOut where
  ret : EmitRet
  invoked : List Nat
  forwarded : List Nat
deriving DecidableEq, Repr

/-- Run the snapshot of the listener list (src/events.js:96-108).  Each call is
wrapped in try/catch, so a throwing callback is logged and skipped.  A `once`
wrapper whose user callback throws never reaches its `evt.unbind()` line; one
that completes unbinds its own registration. -/
def runCBs : List (Nat × CB) → EventsState → (EventsState × List Nat)
  | [], s => (s, [])
  | (id, cb) :: rest, s =>
    match cb with
    | .plain _ =>
      let r := runCBs rest s
      (r.1, id :: r.2)
    | .onceWrap thr name selfId =>
      if thr then
        let r := runCBs rest s
        (r.1, id :: r.2)
      else
        let s0 := { s with registry := unbindReg s.registry name selfId }
        let r := runCBs rest s0
        (r.1, id :: r.2)

/-- Model of `Events.emit` (src/events.js:91-119).  When `_suspendEvents` is
set the method returns immediately — with `undefined`, not `this`.  Otherwise
it iterates a slice of the listener list, then forwards to every attached
emitter, and returns `this`. -/
def emit (s : EventsState) (name : String) : EventsState × EmitOut :=
  if s.suspendEvents then (s, ⟨.undef, [], []⟩)
  else
    let snapshot := (lookupReg s.registry name).getD []
    let r := runCBs snapshot s
    (r.1, ⟨.self, r.2, r.1.emitters⟩)

def setReg : Registry → String → List (Nat × CB) → Registry
  | [], name, l => [(name, l)]
  | (n, l0) :: rest, name, l =>
    if n = name then (n, l) :: rest else (n, l0) :: setReg rest name l

/-- Model of `Events.on` (src/events.js:55-64): create the listener list or
push, skipping a listener already registered (by reference identity). -/
def onReg (s : EventsState) (name : String) (id : Nat) (cb : CB) : EventsState :=
  match lookupReg s.registry name with
  | none => { s with registry := s.registry ++ [(name, [(id, cb)])] }
  | some l =>
    if containsId l id then s
    else { s with registry := setReg s.registry name (l ++ [(id, cb)]) }

/-- Model of `Events.once` (src/events.js:71-77): registers the wrapper
closure; `thr` says whether the wrapped user callback throws when invoked. -/
def onceReg (s : EventsState) (name : String) (id : Nat) (thr : Bool) : EventsState :=
  onReg s name id (.onceWrap thr name id)

/-- Callbacks that never modify the registry when invoked: ordinary listeners
(whether or not they throw) and `once` wrappers whose user callback throws
(the throw prevents the wrapper from unbinding). -/
def nonRemoving : CB → Bool
  | .plain _ => true
  | .onceWrap thr _ _ => thr

end Ev

namespace Hist

/-- One history action (src/history.js `HistoryAction`): its name, whether the
`undo`/`redo` functions are present, the `combine` flag, and identities for the
undo and redo function references (a `combine` merge replaces only `redoId`).
The `id` field is the identity of the action object itself. -/
structure HAction where
  id : Nat
  name : String
  hasUndo : Bool
  hasRedo : Bool
  combine : Bool
  undoId : Nat
  redoId : Nat
deriving DecidableEq, Repr

/-- State of a `History` instance (src/history.js:37-54): the re-entrant
`_executing` counter, the action stack, the cursor `_currentActionIndex`
(-1 when empty), and the two underlying flags `_canUndo`/`_canRedo`.
The `canUndo`/`canRedo` events emitted by the setters are not observed by any
claim and are not tracked. -/
structure HistoryState where
  executing : Nat
  actions : List HAction
  currentActionIndex : Int
  canUndoFlag : Bool
  canRedoFlag : Bool
deriving DecidableEq, Repr

def initial : HistoryState := ⟨0, [], -1, false, false⟩

/-- Getter `History.canUndo` (src/history.js:237-239):
`this._canUndo && !this.executing`. -/
def canUndo (s : HistoryState) : Bool := s.canUndoFlag && s.executing == 0

/-- Getter `History.canRedo` (src/history.js:259-261):
`this._canRedo && !this.executing`. -/
def canRedo (s : HistoryState) : Bool := s.canRedoFlag && s.executing == 0

/-- Getter `History.currentAction` (src/history.js:206-208):
`this._actions[this._currentActionIndex] || null`. -/
def currentAction (s : HistoryState) : Option HAction :=
  if s.currentActionIndex < 0 then none
  else s.actions.get? s.currentActionIndex.toNat

/-- The action list after the truncation step of `History.add`
(src/history.js:83-85): when the cursor is not at the tail, everything past
the cursor is dropped. -/
def addActions (s : HistoryState) : List HAction :=
  if s.currentActionIndex ≠ (s.actions.length : Int) - 1 then
    s.actions.take (s.currentActionIndex + 1).toNat
  else s.actions

/-- Model of `History.add` (src/history.js:65-102).  Rejects an action missing
name/undo/redo; truncates past the cursor when the cursor is not at the tail;
either merges the redo into the current entry (combine with matching name) or
appends and advances the cursor; finally sets `_canUndo := true` and
`_canRedo := false`. -/
def add (s : HistoryState) (a : HAction) : HistoryState × Bool :=
  if a.name = "" then (s, false)
  else if !a.hasUndo then (s, false)
  else if !a.hasRedo then (s, false)
  else
    match currentAction { s with actions := addActions s } with
    | some cur =>
      if a.combine && (cur.name == a.name) then
        ({ s with actions := (addActions s).set s.currentActionIndex.toNat
                    ({ cur with redoId := a.redoId }),
                  canUndoFlag := true, canRedoFlag := false }, true)
      else
        ({ s with actions := addActions s ++ [a],
                  currentActionIndex := ((addActions s).length : Int),
                  canUndoFlag := true, canRedoFlag := false }, true)
    | none =>
      ({ s with actions := addActions s ++ [a],
                currentActionIndex := ((addActions s).length : Int),
                canUndoFlag := true, canRedoFlag := false }, true)

/-- Model of `History.undo` (src/history.js:128-154).  Returns the new state
and the identity of the undo function that gets executed (inside the
`executing` scope, which nets back to the entry value).  A `none` execution
means the method returned without touching the stack. -/
def undo (s : HistoryState) : HistoryState × Option Nat :=
  if !canUndo s then (s, none)
  else
    match currentAction s with
    | none => (s, none)
    | some cur =>
      ({ s with
          currentActionIndex := s.currentActionIndex - 1,
          canUndoFlag := if s.currentActionIndex - 1 < 0 then false else s.canUndoFlag,
          canRedoFlag := true },
        some cur.undoId)

/-- Model of `History.redo` (src/history.js:162-186).  Moves the cursor
forward, reads the entry there, updates the flags and executes that entry's
redo function (returned by identity).  If the cursor lands past the stack the
source would throw on `this.currentAction.redo`; that situation is unreachable
through the public methods and is modelled as a no-execution return. -/
def redo (s : HistoryState) : HistoryState × Option Nat :=
  if !canRedo s then (s, none)
  else
    match currentAction { s with currentActionIndex := s.currentActionIndex + 1 } with
    | none => ({ s with currentActionIndex := s.currentActionIndex + 1 }, none)
    | some cur =>
      ({ s with
          currentActionIndex := s.currentActionIndex + 1,
          canUndoFlag := true,
          canRedoFlag :=
            if s.currentActionIndex + 1 = (s.actions.length : Int) - 1 then false
            else s.canRedoFlag },
        some cur.redoId)

/-- Identities of the redo functions executed by `n` consecutive `redo()`
calls starting from `s`. -/
def redoSeq : HistoryState → Nat → List Nat
  | _, 0 => []
  | s, n + 1 =>
    match (redo s).2 with
    | none => redoSeq (redo s).1 n
    | some i => i :: redoSeq (redo s).1 n

end Hist

namespace Obs

mutual

/-- Internal stored value of an observer field (`_data` slot, src/observer.ts):
a scalar leaf, a keyed sub-record `{_path, _keys, _data}` (field order models
`_keys`), or an ordered array. -/
inductive IVal : Type where
  | prim (v : JVal)
  | sub (path : String) (fields : List (String × IVal))
  | iarr (elems : List Elem)

/-- Element of a stored ordered array: a scalar, a raw (unwrapped) JS value
kept by reference (plain arrays, and plain objects assigned by the in-place
array diff), or a nested child `Observer` given by its root fields. -/
inductive Elem : Type where
  | eprim (v : JVal)
  | eraw (v : JVal)
  | eobs (fields : List (String × IVal))

end

/-- One `emit` call performed by the observer code.  `e…` entries are the
path-exact events (for example `<path>:set`), `w…` entries the wildcard events
(`*:set` carrying the path as first argument).  Live internal values that the
source passes as payloads (stored arrays, nested observers) are recorded
through their `json` rendering. -/
inductive Evt : Type where
  | eSet (path : String) (value valueOld : JVal) (remote : Bool)
  | wSet (path : String) (value valueOld : JVal) (remote : Bool)
  | eUnset (path : String) (valueOld : JVal) (remote : Bool)
  | wUnset (path : String) (valueOld : JVal) (remote : Bool)
  | eInsert (path : String) (value : JVal) (ind : Int) (remote : Bool)
  | wInsert (path : String) (value : JVal) (ind : Int) (remote : Bool)
  | eRemove (path : String) (value : JVal) (ind : Int) (remote : Bool)
  | wRemove (path : String) (value : JVal) (ind : Int) (remote : Bool)
  | eMove (path : String) (value : JVal) (indNew indOld : Int) (remote : Bool)
  | wMove (path : String) (value : JVal) (indNew indOld : Int) (remote : Bool)

/-- Is a trace entry an insert event (path-exact or wildcard)? -/
def Evt.isInsert : Evt → Bool
  | .eInsert _ _ _ _ => true
  | .wInsert _ _ _ _ => true
  | _ => false

/-- Value payload of an insert event. -/
def Evt.insertValue : Evt → Option JVal
  | .eInsert _ v _ _ => some v
  | .wInsert _ v _ _ => some v
  | _ => none

def lookupF : List (String × IVal) → String → Option IVal
  | [], _ => none
  | (k, v) :: rest, key => if k = key then some v else lookupF rest key

def hasK (fields : List (String × IVal)) (key : String) : Bool :=
  (lookupF fields key).isSome

/-- Replace the value stored at the first occurrence of `key`; no change when
the key is absent (call sites that add a key append it explicitly, mirroring
the separate `_keys.push`). -/
def putF : List (String × IVal) → String → IVal → List (String × IVal)
  | [], _, _ => []
  | (k, v) :: rest, key, nv =>
    if k = key then (k, nv) :: rest else (k, v) :: putF rest key nv

/-- Remove a key (the paired `_keys.splice` / `delete _data[key]`). -/
def removeF : List (String × IVal) → String → List (String × IVal)
  | [], _ => []
  | (k, v) :: rest, key => if k = key then rest else (k, v) :: removeF rest key

/-- Keyed lookup in a plain JS object value. -/
def lookupJ : List (String × JVal) → String → Option JVal
  | [], _ => none
  | (k, v) :: rest, key => if k = key then some v else lookupJ rest key

def hasJ (fs : List (String × JVal)) (key : String) : Bool :=
  (lookupJ fs key).isSome

/-- JS string-keyed indexing into an array (`arr[keys[i]]` with a string key):
hits exactly when the key is the canonical decimal numeral of an index in
range. -/
def strIndex (s : String) (len : Nat) : Option Nat :=
  match strToNatQ s with
  | some n => if toString n = s && n < len then some n else none
  | none => none

/-- Model of JS `parseInt(s, 10)`: an optional sign followed by at least one
leading digit; `none` models `NaN`. -/
def jsParseInt (s : String) : Option Int :=
  let core : List Char → Option Int := fun l =>
    match l.takeWhile (fun c => c.isDigit) with
    | [] => none
    | ds => (natOfDigits ds 0).map (fun n => (n : Int))
  match s.data with
  | '-' :: rest => (core rest).map (fun n => -n)
  | '+' :: rest => core rest
  | l => core l

/-- JS truthiness of a stored value (sub-records and arrays are objects, hence
truthy). -/
def jsTruthyIV : IVal → Bool
  | .prim p => jsTruthy p
  | _ => true

/-- The `valueOld && valueOld[i] || null` payload used by the per-index `set`
events of the array branches of `Observer.set`. -/
def jsIndexOr (old : JVal) (i : Nat) : JVal :=
  match old with
  | .arr xs =>
    match xs.get? i with
    | some v => if jsTruthy v then v else .null
    | none => .null
  | _ => .null

/-- JS strict equality between a stored `_data` slot (absent = `undefined`)
and a fresh caller value: primitives by value, composites never (distinct
references). -/
def strictEqIV : Option IVal → JVal → Bool
  | some (.prim p), v => scalarEq p v
  | some _, _ => false
  | none, v => scalarEq .undef v

mutual

/-- Model of `Observer.json` on a stored value (src/observer.ts:1004-1053).
Scalars are returned as is; sub-records and nested observers render their
fields in `_keys` order; arrays render element-wise.  Raw elements are sliced
or shallow-copied by the source, which is value-equality preserving, so they
render as themselves. -/
def jsonIVal : Nat → IVal → Option JVal
  | 0, _ => none
  | fuel + 1, v =>
    match v with
    | .prim p => some p
    | .sub _ fs => (jsonFields fuel fs).map JVal.obj
    | .iarr es => (jsonElems fuel es).map JVal.arr

def jsonFields : Nat → List (String × IVal) → Option (List (String × JVal))
  | 0, _ => none
  | _ + 1, [] => some []
  | fuel + 1, (k, v) :: rest => do
    let jv ← jsonIVal fuel v
    let jr ← jsonFields fuel rest
    pure ((k, jv) :: jr)

def jsonElems : Nat → List Elem → Option (List JVal)
  | 0, _ => none
  | _ + 1, [] => some []
  | fuel + 1, e :: rest => do
    let je ← jsonElem fuel e
    let jr ← jsonElems fuel rest
    pure (je :: jr)

def jsonElem : Nat → Elem → Option JVal
  | 0, _ => none
  | fuel + 1, e =>
    match e with
    | .eprim p => some p
    | .eraw v => some v
    | .eobs fs => (jsonFields fuel fs).map JVal.obj

end

mutual

/-- Model of `arrayEquals` (src/utils.ts) applied to a fresh caller array and
a stored internal array, as called by `Observer.set`: equal lengths and
element-wise strict equality, recursing when both sides are arrays.  A stored
nested observer or raw composite is never strictly equal to a fresh value. -/
def arrayEqualsVE : Nat → List JVal → List Elem → Option Bool
  | 0, _, _ => none
  | fuel + 1, xs, es =>
    if xs.length ≠ es.length then some false
    else arrayEqualsVEL fuel xs es

def arrayEqualsVEL : Nat → List JVal → List Elem → Option Bool
  | 0, _, _ => none
  | _ + 1, [], _ => some true
  | _ + 1, _, [] => some true
  | fuel + 1, x :: xs, e :: es =>
    match x, e with
    | .arr as, .eraw (.arr bs) => do
      let r ← arrayEqualsRaw fuel as bs
      if r then arrayEqualsVEL fuel xs es else pure false
    | _, _ =>
      match e with
      | .eprim p =>
        if scalarEq x p then arrayEqualsVEL fuel xs es else some false
      | _ => some false

/-- `arrayEquals` on two raw JS arrays (nested-array recursion). -/
def arrayEqualsRaw : Nat → List JVal → List JVal → Option Bool
  | 0, _, _ => none
  | fuel + 1, as, bs =>
    if as.length ≠ bs.length then some false
    else arrayEqualsRawL fuel as bs

def arrayEqualsRawL : Nat → List JVal → List JVal → Option Bool
  | 0, _, _ => none
  | _ + 1, [], _ => some true
  | _ + 1, _, [] => some true
  | fuel + 1, a :: as, b :: bs =>
    match a, b with
    | .arr xs, .arr ys => do
      let r ← arrayEqualsRaw fuel xs ys
      if r then arrayEqualsRawL fuel as bs else pure false
    | _, _ =>
      if scalarEq a b then arrayEqualsRawL fuel as bs else some false

end

/-- Model of `Observer._equals` (src/observer.ts:623-631) comparing a stored
slot (absent = `undefined`) with a fresh value: strict equality, or
`arrayEquals` when both sides are arrays. -/
def equalsIV (fuel : Nat) (a : Option IVal) (b : JVal) : Option Bool :=
  match a with
  | some (.iarr es) =>
    match b with
    | .arr xs => arrayEqualsVE fuel xs es
    | _ => some (strictEqIV a b)
  | _ => some (strictEqIV a b)

end Obs

namespace Obs

/-- Value of the JS variable `node` while a mutation method walks a path:
a record-like node (the observer itself, a delegated child observer — whose
own `_path` is the empty string — or a stored sub-record), a stored array, a
scalar, a raw unwrapped JS value, or `undefined`. -/
inductive WNode : Type where
  | wsub (path : String) (fields : List (String × IVal))
  | warr (elems : List Elem)
  | wprim (v : JVal)
  | wraw (v : JVal)
  | wundef

def embedI : IVal → WNode
  | .prim p => .wprim p
  | .sub p fs => .wsub p fs
  | .iarr es => .warr es

/-- Write a walked node back into a `_data` slot.  The two last cases cannot
arise from a slot (raw values and `undefined` are never stored in `_data`). -/
def unembedI : WNode → IVal
  | .wprim p => .prim p
  | .wsub p fs => .sub p fs
  | .warr es => .iarr es
  | .wraw v => .prim v
  | .wundef => .prim .undef

def embedE : Elem → WNode
  | .eprim p => .wprim p
  | .eraw v => .wraw v
  | .eobs fs => .wsub "" fs

/-- Write a walked node back into an array element slot. -/
def unembedE : WNode → Elem
  | .wprim p => .eprim p
  | .wraw v => .eraw v
  | .wsub _ fs => .eobs fs
  | .warr es => .eraw (.arr (es.map (fun _ => JVal.undef)))
  | .wundef => .eprim .undef

mutual

/-- Trace of the recursive child removals performed by `Observer.unset`
(src/observer.ts:667-674): the keys of the record being removed are unset in
reverse order through full recursive `obj.unset(path + '.' + childKey, true)`
calls — whose path argument is re-split on `'.'` by the recursive `unset`, so
the child key contributes `splitPath childKey` segments relative to the record
— threading the record's state through the successive removals.  The caller
deletes the whole key afterwards, so the mutated record is discarded, but the
emissions (and a TypeError from a dotted child key whose walk dereferences an
absent slot) survive. -/
def unsetChildren : Nat → String → String → List (String × IVal) →
    Option (Except Unit (List Evt))
  | 0, _, _, _ => none
  | fuel + 1, path, sp, cfs => do
    let r ← unsetChildrenRev fuel (.wsub sp cfs) path ((cfs.map Prod.fst).reverse)
    match r with
    | .error e => pure (.error e)
    | .ok (_, tr) => pure (.ok tr)

def unsetChildrenRev : Nat → WNode → String → List String →
    Option (Except Unit (WNode × List Evt))
  | 0, _, _, _ => none
  | _ + 1, node, _, [] => some (.ok (node, []))
  | fuel + 1, node, path, ck :: rest => do
    let r ← unsetW fuel node (splitPath ck) (path ++ "." ++ ck) false
    match r with
    | .error e => pure (.error e)
    | .ok (node2, _, tr) => do
      let r2 ← unsetChildrenRev fuel node2 path rest
      match r2 with
      | .error e => pure (.error e)
      | .ok (node3, tr2) => pure (.ok (node3, tr ++ tr2))

/-- Final step of `Observer.unset` once the walk has resolved the parent node
(src/observer.ts:658-692).  `!node._data` throws a TypeError when `node` is
`undefined` or `null`; it is false (so the method returns false) for scalars,
raw values and arrays; and for a record the key is either absent (return
false) or removed after its children, emitting `<path>:unset`/`*:unset` with
the old JSON value. -/
def unsetFinal (fuel : Nat) (node : WNode) (key : String) (path : String)
    (remote : Bool) : Option (Except Unit (WNode × Bool × List Evt)) :=
  match node with
  | .wundef => some (.error ())
  | .wprim .null => some (.error ())
  | .wprim .undef => some (.error ())
  | .wprim _ => some (.ok (node, false, []))
  | .wraw _ => some (.ok (node, false, []))
  | .warr _ => some (.ok (node, false, []))
  | .wsub p fs =>
    match lookupF fs key with
    | none => some (.ok (node, false, []))
    | some v =>
      match fuel with
      | 0 => none
      | fuel + 1 => do
        let valueOld ← jsonIVal fuel v
        let rc ←
          match v with
          | .sub sp cfs => unsetChildren fuel path sp cfs
          | _ => pure (Except.ok [])
        match rc with
        | .error e => pure (.error e)
        | .ok childTr =>
          some (.ok (.wsub p (removeF fs key), true,
            childTr ++ [Evt.eUnset path valueOld remote, Evt.wUnset path valueOld remote]))

/-- Walk loop of `Observer.unset` (src/observer.ts:646-656).  The loop indexes
arrays by raw string key, delegates into nested observers (rebasing the path
to the remaining segments), and otherwise dereferences `node._data[keys[i]]`,
which throws on `undefined`, `null`, scalars and raw objects. -/
def unsetW : Nat → WNode → List String → String → Bool →
    Option (Except Unit (WNode × Bool × List Evt))
  | 0, _, _, _, _ => none
  | _ + 1, _, [], _, _ => some (.error ())
  | fuel + 1, node, [key], path, remote => unsetFinal fuel node key path remote
  | fuel + 1, node, k :: rest, path, remote =>
    match node with
    | .warr es =>
      match strIndex k es.length with
      | some i =>
        match es.get? i with
        | some (.eobs cfs) => do
          let r ← unsetW fuel (.wsub "" cfs) rest (String.intercalate "." rest) remote
          match r with
          | .error e => pure (.error e)
          | .ok (node2, b, tr) =>
            pure (.ok (.warr (es.set i (unembedE node2)), b, tr))
        | some e => do
          let r ← unsetW fuel (embedE e) rest path remote
          match r with
          | .error er => pure (.error er)
          | .ok (node2, b, tr) =>
            pure (.ok (.warr (es.set i (unembedE node2)), b, tr))
        | none => some (.error ())
      | none => unsetW fuel .wundef rest path remote
    | .wraw (.arr xs) =>
      -- a raw nested array: same `instanceof Array` branch over raw elements;
      -- no mutation can land inside raw data through unset, so the node is
      -- returned unchanged
      match strIndex k xs.length with
      | some i => do
        let w : WNode :=
          match xs.get? i with
          | some (.arr ys) => .wraw (.arr ys)
          | some (.obj fs) => .wraw (.obj fs)
          | some v => .wprim v
          | none => .wundef
        let r ← unsetW fuel w rest path remote
        match r with
        | .error er => pure (.error er)
        | .ok (_, b, tr) => pure (.ok (node, b, tr))
      | none => unsetW fuel .wundef rest path remote
    | .wsub p fs =>
      match lookupF fs k with
      | some v => do
        let r ← unsetW fuel (embedI v) rest path remote
        match r with
        | .error er => pure (.error er)
        | .ok (node2, b, tr) =>
          pure (.ok (.wsub p (putF fs k (unembedI node2)), b, tr))
      | none => unsetW fuel .wundef rest path remote
    | .wprim _ => some (.error ())
    | .wraw _ => some (.error ())
    | .wundef => some (.error ())

end

/-- Public `Observer.unset(path, silent, remote)` on a root observer given by
its fields (the `silent` flag only toggles the history/sync bridges and has no
effect on state or emission, so it is not a parameter). -/
def unsetTop (fuel : Nat) (root : List (String × IVal)) (path : String)
    (remote : Bool) : Option (Except Unit (List (String × IVal) × Bool × List Evt)) := do
  let r ← unsetW fuel (.wsub "" root) (splitPath path) path remote
  match r with
  | .error e => pure (.error e)
  | .ok (.wsub _ fs, b, tr) => pure (.ok (fs, b, tr))
  | .ok _ => pure (.error ())

end Obs

namespace Obs

/-- Element versus fresh value under JS `===` (used by `node[ind] === value`
and the in-place diff): scalar elements by value, raw and observer elements
never (distinct references). -/
def elemEqJ : Elem → JVal → Bool
  | .eprim p, v => scalarEq p v
  | _, _ => false

/-- Is `typeof v === 'object'` (true for objects, arrays and `null`)? -/
def objecty : JVal → Bool
  | .obj _ => true
  | .arr _ => true
  | .null => true
  | _ => false

/-- How a raw assignment `arr[ind] = value` stores the value: composites stay
raw references, everything else is a scalar element. -/
def elemOfRaw : JVal → Elem
  | .arr xs => .eraw (.arr xs)
  | .obj fs => .eraw (.obj fs)
  | v => .eprim v

/-- JS array index assignment on a stored array: in range replaces; past the
end extends, with the intermediate holes reading back as `undefined`. -/
def jsArraySetE (es : List Elem) (i : Nat) (e : Elem) : List Elem :=
  if i < es.length then es.set i e
  else es ++ List.replicate (i - es.length) (Elem.eprim .undef) ++ [e]

/-- JS array index assignment on a raw array. -/
def jsArraySetR (xs : List JVal) (i : Nat) (v : JVal) : List JVal :=
  if i < xs.length then xs.set i v
  else xs ++ List.replicate (i - xs.length) JVal.undef ++ [v]

/-- JS `splice(start, 0, e)` index normalisation and insertion. -/
def jsSpliceInsertE (es : List Elem) (start : Int) (e : Elem) : List Elem :=
  let s : Nat :=
    if start < 0 then (max ((es.length : Int) + start) 0).toNat
    else min start.toNat es.length
  es.take s ++ [e] ++ es.drop s

/-- JS `splice(start, 1)` index normalisation and removal. -/
def jsSpliceRemove1 (es : List Elem) (start : Int) : List Elem :=
  let s : Nat :=
    if start < 0 then (max ((es.length : Int) + start) 0).toNat
    else start.toNat
  es.eraseIdx s

/-- Replace a field of a raw JS object. -/
def putJ : List (String × JVal) → String → JVal → List (String × JVal)
  | [], _, _ => []
  | (k, v) :: rest, key, nv =>
    if k = key then (k, nv) :: rest else (k, v) :: putJ rest key nv

def getJ (fs : List (String × JVal)) (k : String) : JVal :=
  (lookupJ fs k).getD (.undef)

/-- `arr.indexOf(value) !== -1` for the duplicate check of `_doInsert`: a
wrapped scalar matches an equal scalar element; a fresh raw copy or fresh
nested observer matches nothing. -/
def elemIndexOfHit (es : List Elem) (w : Elem) : Bool :=
  match w with
  | .eprim p => es.any (fun e => elemEqJ e p)
  | _ => false

/-- Per-index `set` emissions after the rebuild path of the array branch of
`Observer.set` (src/observer.ts:420-423). -/
def perIndexEmits : Nat → String → Nat → List Elem → JVal → Bool → Option (List Evt)
  | 0, _, _, _, _, _ => none
  | _ + 1, _, _, [], _, _ => some []
  | fuel + 1, path, i, e :: es, valueOld, remote => do
    let je ← jsonElem fuel e
    let rest ← perIndexEmits fuel path (i + 1) es valueOld remote
    pure (Evt.eSet (path ++ "." ++ toString i) je (jsIndexOr valueOld i) remote ::
          Evt.wSet (path ++ "." ++ toString i) je (jsIndexOr valueOld i) remote :: rest)

end Obs

namespace Obs

mutual

/-- Per-element preparation of an array value by `Observer._prepare`
(src/observer.ts:191-212): object elements become nested child observers
(constructed with no parent yet, so their construction emits nothing
observable), array elements stay raw (`slice(0)` is evaluated and dropped),
and every other element is stored as a scalar and emits a per-index `set`
with old value `null`. -/
def prepArrElems : Nat → String → Nat → List JVal → Bool → Option (List Elem × List Evt)
  | 0, _, _, _, _ => none
  | _ + 1, _, _, [], _ => some ([], [])
  | fuel + 1, path, i, v :: rest, remote =>
    match v with
    | .obj fs => do
      let cf ← constructFields fuel (.obj fs)
      let r ← prepArrElems fuel path (i + 1) rest remote
      pure (Elem.eobs cf :: r.1, r.2)
    | .arr xs => do
      let r ← prepArrElems fuel path (i + 1) rest remote
      pure (Elem.eraw (.arr xs) :: r.1, r.2)
    | v => do
      let r ← prepArrElems fuel path (i + 1) rest remote
      pure (Elem.eprim v :: r.1,
        Evt.eSet (path ++ "." ++ toString i) v .null remote ::
        Evt.wSet (path ++ "." ++ toString i) v .null remote :: r.2)

/-- Field loop of the keyed-object branch of `Observer._prepare`
(src/observer.ts:233-247): object-like fields recurse into `_prepare`
(silently — which does not stop the emissions, only history recording),
scalar fields are stored and emit a per-field `set` with old value `null`. -/
def prepObjFields : Nat → String → List (String × IVal) → List (String × JVal) → Bool →
    Option (List (String × IVal) × List Evt)
  | 0, _, _, _, _ => none
  | _ + 1, _, acc, [], _ => some (acc, [])
  | fuel + 1, path, acc, (k, v) :: rest, remote =>
    if objecty v then do
      let r1 ← prepareAdd fuel path acc k v remote
      let r2 ← prepObjFields fuel path r1.1 rest remote
      pure (r2.1, r1.2 ++ r2.2)
    else do
      let r2 ← prepObjFields fuel path (acc ++ [(k, .prim v)]) rest remote
      pure (r2.1, Evt.eSet (path ++ "." ++ k) v .null remote ::
                  Evt.wSet (path ++ "." ++ k) v .null remote :: r2.2)

/-- Model of `Observer._prepare(target, key, value, silent, remote)`
(src/observer.ts:183-277) for an absent key (the only way it is reached from
`patch` and `set`, both of which guard on `hasOwnProperty`): pushes the key
and stores the prepared value, emitting the per-element/per-field events and
then the `set` at the key's own path.  The array event carries the live stored
array (rendered through json); the object event carries the raw passed value
with old value `undefined`; the scalar event carries old value `undefined`. -/
def prepareAdd : Nat → String → List (String × IVal) → String → JVal → Bool →
    Option (List (String × IVal) × List Evt)
  | 0, _, _, _, _, _ => none
  | fuel + 1, tpath, fields, key, value, remote =>
    let path := if tpath ≠ "" then tpath ++ "." ++ key else key
    match value with
    | .arr xs => do
      let r ← prepArrElems fuel path 0 xs remote
      let aj ← jsonElems fuel r.1
      pure (fields ++ [(key, .iarr r.1)],
        r.2 ++ [Evt.eSet path (.arr aj) .null remote, Evt.wSet path (.arr aj) .null remote])
    | .obj vfs => do
      let r ← prepObjFields fuel path [] vfs remote
      pure (fields ++ [(key, .sub path r.1)],
        r.2 ++ [Evt.eSet path (.obj vfs) .undef remote, Evt.wSet path (.obj vfs) .undef remote])
    | v =>
      some (fields ++ [(key, .prim v)],
        [Evt.eSet path v .undef remote, Evt.wSet path v .undef remote])

/-- Fields of `new Observer(data)`: the constructor runs `this.patch(data)` on
an empty observer with no parent and no listeners yet, so the construction
emits nothing observable (src/observer.ts:64-95). -/
def constructFields : Nat → JVal → Option (List (String × IVal))
  | 0, _ => none
  | fuel + 1, data => do
    let r ← patchFields fuel [] data false
    match r with
    | .ok (fs, _) => pure fs
    | .error _ => none

/-- Model of `Observer.patch(data, removeMissingKeys)` (src/observer.ts:978-998)
on an observer/record given by its fields.  Non-object data returns unchanged;
`null` data iterates nothing, but with `removeMissingKeys` and at least one
stored key the removal loop throws on `null.hasOwnProperty`; for-in over an
array yields its indices. -/
def patchFields : Nat → List (String × IVal) → JVal → Bool →
    Option (Except Unit (List (String × IVal) × List Evt))
  | 0, _, _, _ => none
  | fuel + 1, fields, data, rmk =>
    match data with
    | .obj dfs => patchGo fuel fields dfs data rmk
    | .arr xs => patchGo fuel fields (xs.enum.map (fun p => (toString p.1, p.2))) data rmk
    | .null =>
      if rmk && !fields.isEmpty then some (.error ())
      else some (.ok (fields, []))
    | _ => some (.ok (fields, []))

def patchGo : Nat → List (String × IVal) → List (String × JVal) → JVal → Bool →
    Option (Except Unit (List (String × IVal) × List Evt))
  | 0, _, _, _, _ => none
  | fuel + 1, fields, dfs, data, rmk => do
    let r1 ← patchPhase1 fuel fields dfs
    match r1 with
    | .error e => pure (.error e)
    | .ok (f1, t1) =>
      if rmk then do
        let r2 ← patchPhase2 fuel f1 (f1.map Prod.fst) data
        match r2 with
        | .error e => pure (.error e)
        | .ok (f2, t2) => pure (.ok (f2, t1 ++ t2))
      else pure (.ok (f1, t1))

/-- The `for (const key in data)` loop of `patch` (src/observer.ts:983-989):
object-like values at absent keys go through `_prepare` (which stores the key
atomically); otherwise, when the stored slot is not strictly equal to the
incoming value, `this.set(key, value)` — and `set` re-splits its path argument
on `'.'`, so a dotted key walks (and creates) intermediate sub-records. -/
def patchPhase1 : Nat → List (String × IVal) → List (String × JVal) →
    Option (Except Unit (List (String × IVal) × List Evt))
  | 0, _, _ => none
  | _ + 1, fields, [] => some (.ok (fields, []))
  | fuel + 1, fields, (k, v) :: rest =>
    if objecty v && !hasK fields k then do
      let r1 ← prepareAdd fuel "" fields k v false
      let r2 ← patchPhase1 fuel r1.1 rest
      match r2 with
      | .error e => pure (.error e)
      | .ok (f2, t2) => pure (.ok (f2, r1.2 ++ t2))
    else if !strictEqIV (lookupF fields k) v then do
      let r1 ← setW fuel (.wsub "" fields) (splitPath k) k v false false
      match r1 with
      | .error e => pure (.error e)
      | .ok (node2, _, t1) =>
        match node2 with
        | .wsub _ f1 => do
          let r2 ← patchPhase1 fuel f1 rest
          match r2 with
          | .error e => pure (.error e)
          | .ok (f2, t2) => pure (.ok (f2, t1 ++ t2))
        | _ => pure (.error ())
    else patchPhase1 fuel fields rest

/-- The `removeMissingKeys` loop of `patch` (src/observer.ts:991-997): every
stored key absent from `data` is unset via `this.unset(key)`, whose path
argument is re-split on `'.'`. -/
def patchPhase2 : Nat → List (String × IVal) → List String → JVal →
    Option (Except Unit (List (String × IVal) × List Evt))
  | 0, _, _, _ => none
  | _ + 1, fields, [], _ => some (.ok (fields, []))
  | fuel + 1, fields, key :: ks, data =>
    let hasOwn : Bool :=
      match data with
      | .obj fs => hasJ fs key
      | .arr xs => (strIndex key xs.length).isSome || key = "length"
      | _ => false
    if hasOwn then patchPhase2 fuel fields ks data
    else do
      let r1 ← unsetW fuel (.wsub "" fields) (splitPath key) key false
      match r1 with
      | .error e => pure (.error e)
      | .ok (node2, _, t1) =>
        match node2 with
        | .wsub _ f1 => do
          let r2 ← patchPhase2 fuel f1 ks data
          match r2 with
          | .error e => pure (.error e)
          | .ok (f2, t2) => pure (.ok (f2, t1 ++ t2))
        | _ => pure (.error ())

/-- Model of `Observer._doInsert(node, key, value, ind, allowDuplicates)`
(src/observer.ts:875-909) on the stored array: wraps the value (plain object
into a fresh nested observer, array into a slice), applies the duplicate check
(skipped for `null`, when duplicates are allowed, or when the node-relative
path is exempted by `_pathsWithDuplicates`), and pushes or splices.  Returns
the updated elements and the returned value (rendered through json; `none`
models the bare `return` of a dropped duplicate, i.e. `undefined`). -/
def doInsert : Nat → String → List Elem → String → JVal → Option Int → Bool →
    Option (List String) → Option (List Elem × Option JVal)
  | 0, _, _, _, _, _, _, _ => none
  | fuel + 1, nodePath, es, key, value, ind, allowDup, pwd => do
    let w : Elem ←
      match value with
      | .obj fs => (constructFields fuel (.obj fs)).map Elem.eobs
      | .arr xs => pure (Elem.eraw (.arr xs))
      | v => pure (Elem.eprim v)
    let path := if nodePath ≠ "" then nodePath ++ "." ++ key else key
    let dupCheck :=
      (match w with | .eprim .null => false | _ => true)
      && !allowDup
      && (match pwd with | none => true | some l => !(l.contains path))
    if dupCheck && elemIndexOfHit es w then
      pure (es, none)
    else do
      let es2 :=
        match ind with
        | none => es ++ [w]
        | some i => jsSpliceInsertE es i w
      let retJ ← jsonElem fuel w
      pure (es2, some retJ)

/-- Rebuild loop of the array branch of `Observer.set`
(src/observer.ts:413-416): each incoming element is re-inserted through
`_doInsert` with duplicates allowed. -/
def rebuildElems : Nat → String → String → List Elem → List JVal → Option (List Elem)
  | 0, _, _, _, _ => none
  | _ + 1, _, _, es, [] => some es
  | fuel + 1, nodePath, key, es, x :: xs => do
    let r ← doInsert fuel nodePath es key x none true none
    rebuildElems fuel nodePath key r.1 xs

/-- In-place element diff of the array branch of `Observer.set`
(src/observer.ts:401-409): nested observers are patched (with
`removeMissingKeys`), other elements are overwritten when not strictly equal,
emitting a per-index `set` with the `valueOld && valueOld[i] || null`
payload. -/
def inPlaceDiff : Nat → String → Nat → List Elem → List JVal → JVal → Bool →
    Option (Except Unit (List Elem × List Evt))
  | 0, _, _, _, _, _, _ => none
  | _ + 1, _, _, es, [], _, _ => some (.ok (es, []))
  | _ + 1, _, _, [], _, _, _ => some (.ok ([], []))
  | fuel + 1, path, i, e :: es, x :: xs, valueOld, remote =>
    match e with
    | .eobs cfs => do
      let r1 ← patchFields fuel cfs x true
      match r1 with
      | .error er => pure (.error er)
      | .ok (cfs2, trc) => do
        let r2 ← inPlaceDiff fuel path (i + 1) es xs valueOld remote
        match r2 with
        | .error er => pure (.error er)
        | .ok (es2, tr2) => pure (.ok (.eobs cfs2 :: es2, trc ++ tr2))
    | e =>
      if elemEqJ e x then do
        let r2 ← inPlaceDiff fuel path (i + 1) es xs valueOld remote
        match r2 with
        | .error er => pure (.error er)
        | .ok (es2, tr2) => pure (.ok (e :: es2, tr2))
      else do
        let r2 ← inPlaceDiff fuel path (i + 1) es xs valueOld remote
        match r2 with
        | .error er => pure (.error er)
        | .ok (es2, tr2) =>
          pure (.ok (elemOfRaw x :: es2,
            Evt.eSet (path ++ "." ++ toString i) x (jsIndexOr valueOld i) remote ::
            Evt.wSet (path ++ "." ++ toString i) x (jsIndexOr valueOld i) remote :: tr2))

/-- Loop 1 of the keyed-object branch of `Observer.set`
(src/observer.ts:464-477): iterate the record's own fields; a field absent
from the incoming value is unset through `obj.unset(path + '.' + n, true)`;
a field that is not `_equals`-equal is set through
`obj.set(path + '.' + n, value[n], true)`.  Both recursive calls re-split
their path argument on `'.'`, so relative to the record the field key
contributes `splitPath n` walk segments (the prefix `path` re-walks to the
record itself). -/
def diffPass1 : Nat → String → List (String × IVal) → List String →
    List (String × JVal) → String →
    Option (Except Unit (List (String × IVal) × Bool × List Evt))
  | 0, _, _, _, _, _ => none
  | _ + 1, _, fields, [], _, _ => some (.ok (fields, false, []))
  | fuel + 1, subPath, fields, n :: ns, vfs, path =>
    if !hasJ vfs n then do
      let r1 ← unsetW fuel (.wsub subPath fields) (splitPath n) (path ++ "." ++ n) false
      match r1 with
      | .error e => pure (.error e)
      | .ok (node2, c, t1) =>
        match node2 with
        | .wsub _ f1 => do
          let r2 ← diffPass1 fuel subPath f1 ns vfs path
          match r2 with
          | .error e => pure (.error e)
          | .ok (f2, c2, t2) => pure (.ok (f2, c || c2, t1 ++ t2))
        | _ => pure (.error ())
    else do
      let ceq ← equalsIV fuel (lookupF fields n) (getJ vfs n)
      if !ceq then do
        let r1 ← setW fuel (.wsub subPath fields) (splitPath n) (path ++ "." ++ n) (getJ vfs n) false false
        match r1 with
        | .error e => pure (.error e)
        | .ok (node2, c, t1) =>
          match node2 with
          | .wsub _ f1 => do
            let r2 ← diffPass1 fuel subPath f1 ns vfs path
            match r2 with
            | .error e => pure (.error e)
            | .ok (f2, c2, t2) => pure (.ok (f2, c || c2, t1 ++ t2))
          | _ => pure (.error ())
      else diffPass1 fuel subPath fields ns vfs path

/-- Loop 2 of the keyed-object branch of `Observer.set`
(src/observer.ts:479-510): iterate the incoming value's keys; an explicit
`undefined` unsets a present field (`obj.unset(path + '.' + k, true)`);
object-like values are set through `obj.set(path + '.' + k, vk, true)` when
present and `_prepare`d (atomically) when absent; a differing scalar is stored
directly — `node._data[key]._data[keys[i]] = value[keys[i]]` with an atomic
key — pushing the key when new and emitting a per-field `set` with old value
`null` at the record's stored path.  The recursive set/unset calls re-split
their path on `'.'`, contributing `splitPath k` segments relative to the
record. -/
def diffPass2 : Nat → String → List (String × IVal) → List (String × JVal) →
    String → Bool →
    Option (Except Unit (List (String × IVal) × Bool × List Evt))
  | 0, _, _, _, _, _ => none
  | _ + 1, _, fields, [], _, _ => some (.ok (fields, false, []))
  | fuel + 1, subPath, fields, (k, vk) :: rest, path, remote =>
    if (match vk with | .undef => true | _ => false) && hasK fields k then do
      let r1 ← unsetW fuel (.wsub subPath fields) (splitPath k) (path ++ "." ++ k) false
      match r1 with
      | .error e => pure (.error e)
      | .ok (node2, c, t1) =>
        match node2 with
        | .wsub _ f1 => do
          let r2 ← diffPass2 fuel subPath f1 rest path remote
          match r2 with
          | .error e => pure (.error e)
          | .ok (f2, c2, t2) => pure (.ok (f2, c || c2, t1 ++ t2))
        | _ => pure (.error ())
    else if objecty vk then
      if hasK fields k then do
        let r1 ← setW fuel (.wsub subPath fields) (splitPath k) (path ++ "." ++ k) vk false false
        match r1 with
        | .error e => pure (.error e)
        | .ok (node2, c, t1) =>
          match node2 with
          | .wsub _ f1 => do
            let r2 ← diffPass2 fuel subPath f1 rest path remote
            match r2 with
            | .error e => pure (.error e)
            | .ok (f2, c2, t2) => pure (.ok (f2, c || c2, t1 ++ t2))
          | _ => pure (.error ())
      else do
        let r1 ← prepareAdd fuel subPath fields k vk remote
        let r2 ← diffPass2 fuel subPath r1.1 rest path remote
        match r2 with
        | .error e => pure (.error e)
        | .ok (f2, c2, t2) => pure (.ok (f2, true || c2, r1.2 ++ t2))
    else do
      let ceq ← equalsIV fuel (lookupF fields k) vk
      if !ceq && !strictEqIV (lookupF fields k) vk then do
        let f1 := if hasK fields k then putF fields k (.prim vk) else fields ++ [(k, .prim vk)]
        let r2 ← diffPass2 fuel subPath f1 rest path remote
        match r2 with
        | .error e => pure (.error e)
        | .ok (f2, c2, t2) =>
          pure (.ok (f2, true,
            Evt.eSet (subPath ++ "." ++ k) vk .null remote ::
            Evt.wSet (subPath ++ "." ++ k) vk .null remote :: t2))
      else diffPass2 fuel subPath fields rest path remote

/-- Walk loop of `Observer.set` (src/observer.ts:298-326).  Arrays are indexed
by raw string key with delegation into nested observers (rebasing the path);
on a record, a non-object slot (absent or scalar; `null` counts as object and
is walked into, throwing on the next dereference) is first unset when truthy
and replaced by a fresh sub-record whose `_path` is the full path being set. -/
def setW : Nat → WNode → List String → String → JVal → Bool → Bool →
    Option (Except Unit (WNode × Bool × List Evt))
  | 0, _, _, _, _, _, _ => none
  | _ + 1, _, [], _, _, _, _ => some (.error ())
  | fuel + 1, node, [key], path, value, force, remote =>
    setFinal fuel node key path value force remote
  | fuel + 1, node, k :: rest, path, value, force, remote =>
    match node with
    | .warr es =>
      match strIndex k es.length with
      | some i =>
        match es.get? i with
        | some (.eobs cfs) => do
          let r ← setW fuel (.wsub "" cfs) rest (String.intercalate "." rest) value force remote
          match r with
          | .error e => pure (.error e)
          | .ok (node2, b, tr) => pure (.ok (.warr (es.set i (unembedE node2)), b, tr))
        | some e => do
          let r ← setW fuel (embedE e) rest path value force remote
          match r with
          | .error er => pure (.error er)
          | .ok (node2, b, tr) => pure (.ok (.warr (es.set i (unembedE node2)), b, tr))
        | none => some (.error ())
      | none => setW fuel .wundef rest path value force remote
    | .wraw (.arr xs) =>
      match strIndex k xs.length with
      | some i => do
        let w : WNode :=
          match xs.get? i with
          | some (.arr ys) => .wraw (.arr ys)
          | some (.obj gs) => .wraw (.obj gs)
          | some v => .wprim v
          | none => .wundef
        let r ← setW fuel w rest path value force remote
        match r with
        | .error er => pure (.error er)
        | .ok (node2, b, tr) =>
          let back : JVal :=
            match node2 with
            | .wraw v => v
            | .wprim p => p
            | _ => .undef
          pure (.ok (.wraw (.arr (xs.set i back)), b, tr))
      | none => setW fuel .wundef rest path value force remote
    | .wsub p fs =>
      let cur := lookupF fs k
      let curIsObj : Bool :=
        match cur with
        | some (.sub _ _) => true
        | some (.iarr _) => true
        | some (.prim .null) => true
        | _ => false
      if !curIsObj then do
        let pre ←
          match cur with
          | some cv =>
            if jsTruthyIV cv then do
              let r0 ← unsetFinal fuel (.wsub p fs)
                k (if p ≠ "" then p ++ "." ++ k else k) false
              match r0 with
              | .error e => pure (Except.error e)
              | .ok (.wsub _ f0, _, t0) => pure (Except.ok (f0, t0))
              | .ok _ => pure (Except.error ())
            else pure (Except.ok (removeF fs k, []))
          | none => pure (Except.ok (fs, []))
        match pre with
        | .error e => pure (.error e)
        | .ok (f0, t0) => do
          -- fresh `{_path: path, _keys: [], _data: {}}` and `_keys.push(keys[i])`.
          -- A falsy non-null scalar is overwritten in `_data` while `_keys`
          -- keeps the old entry and gains a duplicate in the source; the model
          -- collapses this unreachable-from-the-claims corner to one entry.
          let f1 := f0 ++ [(k, IVal.sub path [])]
          let r ← setW fuel (.wsub path []) rest path value force remote
          match r with
          | .error e => pure (.error e)
          | .ok (node2, b, tr) =>
            pure (.ok (.wsub p (putF f1 k (unembedI node2)), b, t0 ++ tr))
      else
        match cur with
        | some v => do
          let r ← setW fuel (embedI v) rest path value force remote
          match r with
          | .error e => pure (.error e)
          | .ok (node2, b, tr) => pure (.ok (.wsub p (putF fs k (unembedI node2)), b, tr))
        | none => some (.error ())
    | .wprim _ => some (.error ())
    | .wraw _ => some (.error ())
    | .wundef => some (.error ())

/-- Final dispatch of `Observer.set` once the parent node and key are resolved
(src/observer.ts:328-561): array destination, previously absent key, ordered
sequence value, keyed-record value, and the scalar fallthrough. -/
def setFinal : Nat → WNode → String → String → JVal → Bool → Bool →
    Option (Except Unit (WNode × Bool × List Evt))
  | 0, _, _, _, _, _, _ => none
  | fuel + 1, node, key, path, value, force, remote =>
    match node with
    | .warr es =>
      -- lines 328-361: destination inside a stored ordered array
      (match jsParseInt key with
      | none =>
        if scalarEq .undef value && !force then some (.ok (node, false, []))
        else some (.ok (node, true,
          [Evt.eSet path value .undef remote, Evt.wSet path value .undef remote]))
      | some ind =>
        let cur : Option Elem := if 0 ≤ ind then es.get? ind.toNat else none
        let eqc := match cur with | some e => elemEqJ e value | none => scalarEq .undef value
        if eqc && !force then some (.ok (node, false, []))
        else do
          let valueOld : JVal ←
            match cur with
            | some (.eobs cfs) => (jsonFields fuel cfs).map JVal.obj
            | some (.eprim pv) => pure pv
            | some (.eraw rv) => pure rv
            | none => pure .undef
          let es2 := if 0 ≤ ind then jsArraySetE es ind.toNat (elemOfRaw value) else es
          pure (.ok (.warr es2, true,
            [Evt.eSet path value valueOld remote, Evt.wSet path value valueOld remote])))
    | .wraw (.arr xs) =>
      -- the same array branch over a raw nested array
      (match jsParseInt key with
      | none =>
        if scalarEq .undef value && !force then some (.ok (node, false, []))
        else some (.ok (node, true,
          [Evt.eSet path value .undef remote, Evt.wSet path value .undef remote]))
      | some ind =>
        let cur : Option JVal := if 0 ≤ ind then xs.get? ind.toNat else none
        let eqc := match cur with | some v => scalarEq v value | none => scalarEq .undef value
        if eqc && !force then some (.ok (node, false, []))
        else
          let valueOld := cur.getD .undef
          let xs2 := if 0 ≤ ind then jsArraySetR xs ind.toNat value else xs
          some (.ok (.wraw (.arr xs2), true,
            [Evt.eSet path value valueOld remote, Evt.wSet path value valueOld remote])))
    | .wsub p fs =>
      match lookupF fs key with
      | none =>
        -- lines 362-381: previously absent key
        if objecty value then do
          let r ← prepareAdd fuel p fs key value remote
          pure (.ok (.wsub p r.1, true, r.2))
        else
          some (.ok (.wsub p (fs ++ [(key, .prim value)]), true,
            [Evt.eSet path value .null remote, Evt.wSet path value .null remote]))
      | some stored =>
        match value with
        | .arr xs => do
          -- lines 383-438: ordered-sequence value
          let aeq : Bool ←
            match stored with
            | .iarr es => arrayEqualsVE fuel xs es
            | _ => pure false
          if aeq && !force then pure (.ok (node, false, []))
          else do
            let valueOld ← jsonIVal fuel stored
            match stored with
            | .iarr es =>
              if es.length = xs.length then do
                let r ← inPlaceDiff fuel path 0 es xs valueOld remote
                match r with
                | .error e => pure (.error e)
                | .ok (es2, trIn) =>
                  pure (.ok (.wsub p (putF fs key (.iarr es2)), true,
                    trIn ++ [Evt.eSet path (.arr xs) valueOld remote,
                             Evt.wSet path (.arr xs) valueOld remote]))
              else do
                let es2 ← rebuildElems fuel p key [] xs
                let trR ← perIndexEmits fuel path 0 es2 valueOld remote
                pure (.ok (.wsub p (putF fs key (.iarr es2)), true,
                  trR ++ [Evt.eSet path (.arr xs) valueOld remote,
                          Evt.wSet path (.arr xs) valueOld remote]))
            | _ => do
              let es2 ← rebuildElems fuel p key [] xs
              let trR ← perIndexEmits fuel path 0 es2 valueOld remote
              pure (.ok (.wsub p (putF fs key (.iarr es2)), true,
                trR ++ [Evt.eSet path (.arr xs) valueOld remote,
                        Evt.wSet path (.arr xs) valueOld remote]))
        | .obj vfs => do
          -- lines 439-528: keyed-record value
          let valueOld ← jsonIVal fuel stored
          let pre :
              Except Unit (Bool × String × List (String × IVal) × List Evt) ←
            match stored with
            | .sub sp sfs => pure (.ok (false, sp, sfs, []))
            | _ =>
              if jsTruthyIV stored then do
                let vj ← jsonIVal fuel stored
                let upath := if p ≠ "" then p ++ "." ++ key else key
                pure (Except.ok (false, path, ([] : List (String × IVal)),
                  [Evt.eUnset upath vj false, Evt.wUnset upath vj false]))
              else pure (.ok (true, path, ([] : List (String × IVal)), []))
          match pre with
          | .error e => pure (.error e)
          | .ok (changed0, subPath, subFs, trPre) => do
            let r1 ← diffPass1 fuel subPath subFs (subFs.map Prod.fst) vfs path
            match r1 with
            | .error e => pure (.error e)
            | .ok (f1, ch1, tr1) => do
              let r2 ← diffPass2 fuel subPath f1 vfs path remote
              match r2 with
              | .error e => pure (.error e)
              | .ok (f2, ch2, tr2) =>
                let changed := changed0 || ch1 || ch2
                let fs2 :=
                  if hasK fs key then putF fs key (.sub subPath f2)
                  else fs ++ [(key, IVal.sub subPath f2)]
                if changed then do
                  let valNew ← jsonFields fuel f2
                  pure (.ok (.wsub p fs2, true,
                    trPre ++ tr1 ++ tr2 ++
                    [Evt.eSet subPath (.obj valNew) valueOld remote,
                     Evt.wSet subPath (.obj valNew) valueOld remote]))
                else pure (.ok (.wsub p fs2, false, trPre ++ tr1 ++ tr2))
        | _ =>
          -- lines 531-561: scalar fallthrough on a record destination
          if strictEqIV (some stored) value && !force then some (.ok (node, false, []))
          else do
            let valueOld ← jsonIVal fuel stored
            pure (.ok (.wsub p (putF fs key (.prim value)), true,
              [Evt.eSet path value valueOld remote, Evt.wSet path value valueOld remote]))
    | .wraw (.obj rfs) =>
      -- scalar fallthrough via the raw-leaf-object escape hatch (line 532):
      -- composite values dereference `node._data[key]` first and throw
      match value with
      | .arr _ => some (.error ())
      | .obj _ => some (.error ())
      | v =>
        match lookupJ rfs key with
        | some cur =>
          if scalarEq cur v && !force then some (.ok (node, false, []))
          else
            some (.ok (.wraw (.obj (putJ rfs key v)), true,
              [Evt.eSet path v cur remote, Evt.wSet path v cur remote]))
        | none => some (.error ())
    | _ => some (.error ())

end

end Obs

namespace Obs

/-- Public `Observer.set(path, value, silent, remote, force)` on a root
observer given by its fields (`silent` only toggles the history/sync bridges
and is not a parameter). -/
def setTop (fuel : Nat) (root : List (String × IVal)) (path : String)
    (value : JVal) (force remote : Bool) :
    Option (Except Unit (List (String × IVal) × Bool × List Evt)) := do
  let r ← setW fuel (.wsub "" root) (splitPath path) path value force remote
  match r with
  | .error e => pure (.error e)
  | .ok (.wsub _ fs, b, tr) => pure (.ok (fs, b, tr))
  | .ok _ => pure (.error ())

/-- Final step of `Observer.insert` (src/observer.ts:848-873): the guard
`!node._data || !node._data.hasOwnProperty(key) || !(node._data[key]
instanceof Array)` returns `undefined` (modelled `none`) unless the key holds
a stored array; on `undefined`/`null` nodes reading `node._data` throws.
After `_doInsert`, an omitted index becomes `arr.length - 1` of the (possibly
grown) array, and `<path>:insert`/`*:insert` are emitted unconditionally —
also for a dropped duplicate, whose emitted value is then `undefined`. -/
def insertFinal (fuel : Nat) (node : WNode) (key : String) (path : String)
    (value : JVal) (ind : Option Int) (remote : Bool) (pwd : Option (List String)) :
    Option (Except Unit (WNode × Option Bool × List Evt)) :=
  match node with
  | .wundef => some (.error ())
  | .wprim .null => some (.error ())
  | .wprim .undef => some (.error ())
  | .wprim _ => some (.ok (node, none, []))
  | .wraw _ => some (.ok (node, none, []))
  | .warr _ => some (.ok (node, none, []))
  | .wsub p fs =>
    match lookupF fs key with
    | some (.iarr es) => do
      let r ← doInsert fuel p es key value ind false pwd
      let ind2 : Int :=
        match ind with
        | some i => i
        | none => (r.1.length : Int) - 1
      let emitV := (r.2).getD .undef
      pure (.ok (.wsub p (putF fs key (.iarr r.1)), some true,
        [Evt.eInsert path emitV ind2 remote, Evt.wInsert path emitV ind2 remote]))
    | _ => some (.ok (node, none, []))

/-- Walk loop of `Observer.insert` (src/observer.ts:834-846): arrays are
indexed via `parseInt`, nested observers delegate (with a child that has no
`_pathsWithDuplicates`), and a record slot is only followed when
`hasOwnProperty` holds — otherwise the method returns `undefined`.  Scalar and
raw-object nodes make `node._data` falsy, returning `undefined`; an
`undefined` node throws on `node._data`. -/
def insertW : Nat → WNode → List String → String → JVal → Option Int → Bool →
    Option (List String) → Option (Except Unit (WNode × Option Bool × List Evt))
  | 0, _, _, _, _, _, _, _ => none
  | _ + 1, _, [], _, _, _, _, _ => some (.error ())
  | fuel + 1, node, [key], path, value, ind, remote, pwd =>
    insertFinal fuel node key path value ind remote pwd
  | fuel + 1, node, k :: rest, path, value, ind, remote, pwd =>
    match node with
    | .warr es =>
      (match jsParseInt k with
      | some i =>
        match (if 0 ≤ i then es.get? i.toNat else none) with
        | some (.eobs cfs) => do
          let r ← insertW fuel (.wsub "" cfs) rest (String.intercalate "." rest) value ind remote none
          match r with
          | .error e => pure (.error e)
          | .ok (node2, b, tr) => pure (.ok (.warr (es.set i.toNat (unembedE node2)), b, tr))
        | some e => do
          let r ← insertW fuel (embedE e) rest path value ind remote pwd
          match r with
          | .error er => pure (.error er)
          | .ok (node2, b, tr) => pure (.ok (.warr (es.set i.toNat (unembedE node2)), b, tr))
        | none => insertW fuel .wundef rest path value ind remote pwd
      | none => insertW fuel .wundef rest path value ind remote pwd)
    | .wraw (.arr xs) =>
      (match jsParseInt k with
      | some i => do
        let w : WNode :=
          match (if 0 ≤ i then xs.get? i.toNat else none) with
          | some (.arr ys) => .wraw (.arr ys)
          | some (.obj gs) => .wraw (.obj gs)
          | some v => .wprim v
          | none => .wundef
        let r ← insertW fuel w rest path value ind remote pwd
        match r with
        | .error er => pure (.error er)
        | .ok (_, b, tr) => pure (.ok (node, b, tr))
      | none => insertW fuel .wundef rest path value ind remote pwd)
    | .wsub p fs =>
      (match lookupF fs k with
      | some v => do
        let r ← insertW fuel (embedI v) rest path value ind remote pwd
        match r with
        | .error e => pure (.error e)
        | .ok (node2, b, tr) => pure (.ok (.wsub p (putF fs k (unembedI node2)), b, tr))
      | none => some (.ok (node, none, [])))
    | .wprim .null => some (.error ())
    | .wprim .undef => some (.error ())
    | .wprim _ => some (.ok (node, none, []))
    | .wraw _ => some (.ok (node, none, []))
    | .wundef => some (.error ())

/-- Public `Observer.insert(path, value, ind, silent, remote)` on a root
observer with its `_pathsWithDuplicates` option (`none` when the option was
not given, in which case no path is exempted). -/
def insertTop (fuel : Nat) (root : List (String × IVal)) (path : String)
    (value : JVal) (ind : Option Int) (remote : Bool) (pwd : Option (List String)) :
    Option (Except Unit (List (String × IVal) × Option Bool × List Evt)) := do
  let r ← insertW fuel (.wsub "" root) (splitPath path) path value ind remote pwd
  match r with
  | .error e => pure (.error e)
  | .ok (.wsub _ fs, b, tr) => pure (.ok (fs, b, tr))
  | .ok _ => pure (.error ())

/-- Final step of `Observer.move` (src/observer.ts:939-976): requires a stored
array at the key (else return `undefined`); a move with equal indices or an
index beyond the length is a no-op returning `undefined`; `indNew = -1` means
append (to the length after removal); reading the element at `indOld = length`
yields `undefined`, which would then be spliced back in. -/
def moveFinal (fuel : Nat) (node : WNode) (key : String) (path : String)
    (indOld indNew : Int) (remote : Bool) :
    Option (Except Unit (WNode × Option Bool × List Evt)) :=
  match node with
  | .wundef => some (.error ())
  | .wprim .null => some (.error ())
  | .wprim .undef => some (.error ())
  | .wprim _ => some (.ok (node, none, []))
  | .wraw _ => some (.ok (node, none, []))
  | .warr _ => some (.ok (node, none, []))
  | .wsub p fs =>
    match lookupF fs key with
    | some (.iarr es) =>
      if (es.length : Int) < indOld || (es.length : Int) < indNew || indOld = indNew then
        some (.ok (node, none, []))
      else do
        let cur : Option Elem := if 0 ≤ indOld then es.get? indOld.toNat else none
        let value := cur.getD (Elem.eprim .undef)
        let es1 := jsSpliceRemove1 es indOld
        let indNew2 : Int := if indNew = -1 then (es1.length : Int) else indNew
        let es2 := jsSpliceInsertE es1 indNew2 value
        let valueJ ← jsonElem fuel value
        pure (.ok (.wsub p (putF fs key (.iarr es2)), some true,
          [Evt.eMove path valueJ indNew2 indOld remote,
           Evt.wMove path valueJ indNew2 indOld remote]))
    | _ => some (.ok (node, none, []))

/-- Walk loop of `Observer.move` (src/observer.ts:925-937), identical in shape
to the insert walk. -/
def moveW : Nat → WNode → List String → String → Int → Int → Bool →
    Option (Except Unit (WNode × Option Bool × List Evt))
  | 0, _, _, _, _, _, _ => none
  | _ + 1, _, [], _, _, _, _ => some (.error ())
  | fuel + 1, node, [key], path, indOld, indNew, remote =>
    moveFinal fuel node key path indOld indNew remote
  | fuel + 1, node, k :: rest, path, indOld, indNew, remote =>
    match node with
    | .warr es =>
      (match jsParseInt k with
      | some i =>
        match (if 0 ≤ i then es.get? i.toNat else none) with
        | some (.eobs cfs) => do
          let r ← moveW fuel (.wsub "" cfs) rest (String.intercalate "." rest) indOld indNew remote
          match r with
          | .error e => pure (.error e)
          | .ok (node2, b, tr) => pure (.ok (.warr (es.set i.toNat (unembedE node2)), b, tr))
        | some e => do
          let r ← moveW fuel (embedE e) rest path indOld indNew remote
          match r with
          | .error er => pure (.error er)
          | .ok (node2, b, tr) => pure (.ok (.warr (es.set i.toNat (unembedE node2)), b, tr))
        | none => moveW fuel .wundef rest path indOld indNew remote
      | none => moveW fuel .wundef rest path indOld indNew remote)
    | .wraw (.arr xs) =>
      (match jsParseInt k with
      | some i => do
        let w : WNode :=
          match (if 0 ≤ i then xs.get? i.toNat else none) with
          | some (.arr ys) => .wraw (.arr ys)
          | some (.obj gs) => .wraw (.obj gs)
          | some v => .wprim v
          | none => .wundef
        let r ← moveW fuel w rest path indOld indNew remote
        match r with
        | .error er => pure (.error er)
        | .ok (_, b, tr) => pure (.ok (node, b, tr))
      | none => moveW fuel .wundef rest path indOld indNew remote)
    | .wsub p fs =>
      (match lookupF fs k with
      | some v => do
        let r ← moveW fuel (embedI v) rest path indOld indNew remote
        match r with
        | .error e => pure (.error e)
        | .ok (node2, b, tr) => pure (.ok (.wsub p (putF fs k (unembedI node2)), b, tr))
      | none => some (.ok (node, none, [])))
    | .wprim .null => some (.error ())
    | .wprim .undef => some (.error ())
    | .wprim _ => some (.ok (node, none, []))
    | .wraw _ => some (.ok (node, none, []))
    | .wundef => some (.error ())

/-- Public `Observer.move(path, indOld, indNew, silent, remote)`. -/
def moveTop (fuel : Nat) (root : List (String × IVal)) (path : String)
    (indOld indNew : Int) (remote : Bool) :
    Option (Except Unit (List (String × IVal) × Option Bool × List Evt)) := do
  let r ← moveW fuel (.wsub "" root) (splitPath path) path indOld indNew remote
  match r with
  | .error e => pure (.error e)
  | .ok (.wsub _ fs, b, tr) => pure (.ok (fs, b, tr))
  | .ok _ => pure (.error ())

/-- Final step of `Observer.remove` (src/observer.ts:721-752): `false` unless
the key holds a stored array or when `arr.length < ind`; removing at
`ind = length` removes nothing and emits with an `undefined` value. -/
def removeFinal (fuel : Nat) (node : WNode) (key : String) (path : String)
    (ind : Int) (remote : Bool) :
    Option (Except Unit (WNode × Option Bool × List Evt)) :=
  match node with
  | .wundef => some (.error ())
  | .wprim .null => some (.error ())
  | .wprim .undef => some (.error ())
  | .wprim _ => some (.ok (node, some false, []))
  | .wraw _ => some (.ok (node, some false, []))
  | .warr _ => some (.ok (node, some false, []))
  | .wsub p fs =>
    match lookupF fs key with
    | some (.iarr es) =>
      if (es.length : Int) < ind then some (.ok (node, some false, []))
      else do
        let cur : Option Elem := if 0 ≤ ind then es.get? ind.toNat else none
        let value := cur.getD (Elem.eprim .undef)
        let valueJ ← jsonElem fuel value
        let es2 := jsSpliceRemove1 es ind
        pure (.ok (.wsub p (putF fs key (.iarr es2)), some true,
          [Evt.eRemove path valueJ ind remote, Evt.wRemove path valueJ ind remote]))
    | _ => some (.ok (node, some false, []))

/-- Walk loop of `Observer.remove` (src/observer.ts:707-719): like the insert
walk, except a missing record key returns `false` rather than `undefined`. -/
def removeW : Nat → WNode → List String → String → Int → Bool →
    Option (Except Unit (WNode × Option Bool × List Evt))
  | 0, _, _, _, _, _ => none
  | _ + 1, _, [], _, _, _ => some (.error ())
  | fuel + 1, node, [key], path, ind, remote => removeFinal fuel node key path ind remote
  | fuel + 1, node, k :: rest, path, ind, remote =>
    match node with
    | .warr es =>
      (match jsParseInt k with
      | some i =>
        match (if 0 ≤ i then es.get? i.toNat else none) with
        | some (.eobs cfs) => do
          let r ← removeW fuel (.wsub "" cfs) rest (String.intercalate "." rest) ind remote
          match r with
          | .error e => pure (.error e)
          | .ok (node2, b, tr) => pure (.ok (.warr (es.set i.toNat (unembedE node2)), b, tr))
        | some e => do
          let r ← removeW fuel (embedE e) rest path ind remote
          match r with
          | .error er => pure (.error er)
          | .ok (node2, b, tr) => pure (.ok (.warr (es.set i.toNat (unembedE node2)), b, tr))
        | none => removeW fuel .wundef rest path ind remote
      | none => removeW fuel .wundef rest path ind remote)
    | .wraw (.arr xs) =>
      (match jsParseInt k with
      | some i => do
        let w : WNode :=
          match (if 0 ≤ i then xs.get? i.toNat else none) with
          | some (.arr ys) => .wraw (.arr ys)
          | some (.obj gs) => .wraw (.obj gs)
          | some v => .wprim v
          | none => .wundef
        let r ← removeW fuel w rest path ind remote
        match r with
        | .error er => pure (.error er)
        | .ok (_, b, tr) => pure (.ok (node, b, tr))
      | none => removeW fuel .wundef rest path ind remote)
    | .wsub p fs =>
      (match lookupF fs k with
      | some v => do
        let r ← removeW fuel (embedI v) rest path ind remote
        match r with
        | .error e => pure (.error e)
        | .ok (node2, b, tr) => pure (.ok (.wsub p (putF fs k (unembedI node2)), b, tr))
      | none => some (.ok (node, some false, [])))
    | .wprim .null => some (.error ())
    | .wprim .undef => some (.error ())
    | .wprim _ => some (.ok (node, some false, []))
    | .wraw _ => some (.ok (node, some false, []))
    | .wundef => some (.error ())

/-- Public `Observer.remove(path, ind, silent, remote)`. -/
def removeTop (fuel : Nat) (root : List (String × IVal)) (path : String)
    (ind : Int) (remote : Bool) :
    Option (Except Unit (List (String × IVal) × Option Bool × List Evt)) := do
  let r ← removeW fuel (.wsub "" root) (splitPath path) path ind remote
  match r with
  | .error e => pure (.error e)
  | .ok (.wsub _ fs, b, tr) => pure (.ok (fs, b, tr))
  | .ok _ => pure (.error ())

end Obs

namespace Sync

/-- A segment of a ShareDB operation path (`p: (string | number)[]`). -/
inductive PSeg where
  | s (v : String)
  | n (v : Int)

/-- A ShareDB operation as consumed by `ObserverSync.write`
(src/observer-sync.ts:18-24): presence of a field models
`op.hasOwnProperty(...)`.  `lm` is the new index of a move. -/
structure SDBOp where
  p : List PSeg
  oi : Option JVal := none
  od : Option JVal := none
  li : Option JVal := none
  ld : Option JVal := none
  lm : Option Int := none

def segStr : PSeg → String
  | .s v => v
  | .n v => toString v

def joinSegs (l : List PSeg) : String := String.intercalate "." (l.map segStr)

/-- The `op.p[op.p.length - 1] as number` read: a numeric last segment.  A
string segment where the source expects a number is coerced loosely (that
shape is not produced by the protocol and not covered by any claim). -/
def lastInd (l : List PSeg) : Int :=
  match l.getLast? with
  | some (.n v) => v
  | some (.s v) => (Obs.jsParseInt v).getD 0
  | none => 0

/-- Which Tree mutation method `write` dispatched to. -/
inductive MutKind where
  | setOp
  | setArrOp
  | removeOp
  | insertOp
  | moveOp
  | unsetOp
deriving DecidableEq, Repr

/-- Model of `ObserverSync.write(op)` (src/observer-sync.ts:172-247) against a
root observer: the field-combination chain `oi` / `ld`+`li` / `ld` / `li` /
`lm` / `od` dispatches to `set`/`set`/`remove`/`insert`/`move`/`unset` with
the path sliced past the prefix; any other combination is logged and ignored
(no mutation call, no state change).  The history-bridge toggling and the
trailing `sync` event do not touch the tree and are not tracked. -/
def write (fuel : Nat) (root : List (String × Obs.IVal)) (preLen : Nat)
    (pwd : Option (List String)) (op : SDBOp) :
    Option (Except Unit (List (String × Obs.IVal) × Option MutKind)) :=
  if op.oi.isSome then do
    let r ← Obs.setTop fuel root (joinSegs (op.p.drop preLen)) (op.oi.getD .undef) false true
    match r with
    | .error e => pure (.error e)
    | .ok (fs, _, _) => pure (.ok (fs, some .setOp))
  else if op.ld.isSome && op.li.isSome then do
    let r ← Obs.setTop fuel root (joinSegs (op.p.drop preLen)) (op.li.getD .undef) false true
    match r with
    | .error e => pure (.error e)
    | .ok (fs, _, _) => pure (.ok (fs, some .setArrOp))
  else if op.ld.isSome then do
    let r ← Obs.removeTop fuel root (joinSegs ((op.p.drop preLen).dropLast)) (lastInd op.p) true
    match r with
    | .error e => pure (.error e)
    | .ok (fs, _, _) => pure (.ok (fs, some .removeOp))
  else if op.li.isSome then do
    let r ← Obs.insertTop fuel root (joinSegs ((op.p.drop preLen).dropLast))
      (op.li.getD .undef) (some (lastInd op.p)) true pwd
    match r with
    | .error e => pure (.error e)
    | .ok (fs, _, _) => pure (.ok (fs, some .insertOp))
  else if op.lm.isSome then do
    let r ← Obs.moveTop fuel root (joinSegs ((op.p.drop preLen).dropLast))
      (lastInd op.p) (op.lm.getD 0) true
    match r with
    | .error e => pure (.error e)
    | .ok (fs, _, _) => pure (.ok (fs, some .moveOp))
  else if op.od.isSome then do
    let r ← Obs.unsetTop fuel root (joinSegs (op.p.drop preLen)) true
    match r with
    | .error e => pure (.error e)
    | .ok (fs, _, _) => pure (.ok (fs, some .unsetOp))
  else
    some (.ok (root, none))

end Sync

namespace Obs

/-- Resolution of a segment list through stored sub-records only (the pure
fragment of the mutation walks: every intermediate slot holds a keyed
sub-record, so the walk neither mutates, delegates, nor throws). -/
def walkRecs : String → List (String × IVal) → List String →
    Option (String × List (String × IVal))
  | p, fs, [] => some (p, fs)
  | _, fs, k :: rest =>
    match lookupF fs k with
    | some (.sub p2 f2) => walkRecs p2 f2 rest
    | _ => none

/-- A stored scalar leaf that compares equal to itself under `===`:
`null`, booleans, numbers and strings (not `undefined`, which `set` with the
tree's own json would unset rather than keep, and not composites). -/
def IsScalar : JVal → Prop
  | .null => True
  | .bool _ => True
  | .num _ => True
  | .str _ => True
  | _ => False

/-- Raw JS data kept by reference inside stored arrays, containing no plain
objects at any depth (a raw object is never strictly equal to its own fresh
json copy, so it would defeat the no-op equality checks). -/
inductive GoodRaw : JVal → Prop where
  | flat (v : JVal) : (match v with | .arr _ => False | .obj _ => False | _ => True) →
      GoodRaw v
  | arr (xs : List JVal) : (∀ x ∈ xs, GoodRaw x) → GoodRaw (.arr xs)

mutual

/-- Stored values in the fragment where `set` with a deep-equal value is a
no-op: scalar leaves, sub-records with distinct dot-free keys and good fields,
and arrays whose elements are good scalars or object-free raw arrays — in
particular no nested observer elements (the refuting case) and no `'.'` inside
a record key, which the record diff's recursive `obj.set(path + '.' + key)` /
`obj.unset(...)` calls would re-split into several walk segments. -/
inductive GoodIV : IVal → Prop where
  | prim (v : JVal) : IsScalar v → GoodIV (.prim v)
  | sub (p : String) (fs : List (String × IVal)) :
      (fs.map Prod.fst).Nodup →
      (∀ k ∈ fs.map Prod.fst, splitPath k = [k]) →
      (∀ x ∈ fs, GoodIV x.2) → GoodIV (.sub p fs)
  | iarr (es : List Elem) : (∀ e ∈ es, GoodElem e) → GoodIV (.iarr es)

inductive GoodElem : Elem → Prop where
  | pr (v : JVal) : (match v with | .arr _ => False | .obj _ => False | .undef => False | _ => True) →
      GoodElem (.eprim v)
  | raw (xs : List JVal) : (∀ x ∈ xs, GoodRaw x) → GoodElem (.eraw (.arr xs))

end

mutual

/-- JSON data for which `new Observer(D).json()` reproduces `D` exactly:
no `undefined` field values (the constructor drops them), no duplicate
keys (later duplicates overwrite earlier ones), and no `'.'` inside a key —
the constructor routes non-object fields through `set(key, value)`, which
re-splits the key on `'.'` and stores a dotted key as a nested record. -/
inductive GoodJ : JVal → Prop where
  | scal (v : JVal) : (match v with | .arr _ => False | .obj _ => False | .undef => False | _ => True) →
      GoodJ v
  | arr (xs : List JVal) : (∀ x ∈ xs, GoodElemJ x) → GoodJ (.arr xs)
  | obj (fs : List (String × JVal)) : (fs.map Prod.fst).Nodup →
      (∀ k ∈ fs.map Prod.fst, splitPath k = [k]) →
      (∀ x ∈ fs, GoodJ x.2) → GoodJ (.obj fs)

/-- Array elements: plain objects become nested observers and must be good;
every other element (scalars, `undefined`, raw arrays) is stored by
reference/value and renders back as itself. -/
inductive GoodElemJ : JVal → Prop where
  | notObj (v : JVal) : (match v with | .obj _ => False | _ => True) → GoodElemJ v
  | obj (fs : List (String × JVal)) : GoodJ (.obj fs) → GoodElemJ (.obj fs)

end

end Obs

namespace Hist

theorem redo_actions_eq (s : HistoryState) : (redo s).1.actions = s.actions := by
  unfold redo
  split
  · rfl
  · split <;> rfl

theorem redo_exec_mem (s : HistoryState) (i : Nat) (h : (redo s).2 = some i) :
    i ∈ s.actions.map (fun a => a.redoId) := by
  unfold redo at h
  split at h
  · exact absurd h (by simp)
  · split at h
    · exact absurd h (by simp)
    · rename_i cur hc
      simp only [Prod.snd] at h
      have hic : i = cur.redoId := by
        have := h
        simp at this
        omega
      subst hic
      unfold currentAction at hc
      split at hc
      · exact absurd hc (by simp)
      · exact List.mem_map_of_mem _ (List.get?_mem hc)

theorem redoSeq_subset (n : Nat) (s : HistoryState) (i : Nat)
    (h : i ∈ redoSeq s n) : i ∈ s.actions.map (fun a => a.redoId) := by
  induction n generalizing s with
  | zero => simp [redoSeq] at h
  | succ n ih =>
    rw [redoSeq] at h
    cases hr : (redo s).2 with
    | none =>
      rw [hr] at h
      have := ih _ h
      rwa [redo_actions_eq] at this
    | some j =>
      rw [hr] at h
      rcases List.mem_cons.mp h with h1 | h2
      · subst h1; exact redo_exec_mem s i hr
      · have := ih _ h2
        rwa [redo_actions_eq] at this


end Hist

theorem runCBs_nonRemoving (l : List (Nat × Ev.CB)) (s : Ev.EventsState)
    (h : ∀ e ∈ l, Ev.nonRemoving e.2 = true) :
    Ev.runCBs l s = (s, l.map Prod.fst) := by
  induction l with
  | nil => rfl
  | cons e rest ih =>
    obtain ⟨id, cb⟩ := e
    have he := h (id, cb) (by simp)
    have hr : ∀ x ∈ rest, Ev.nonRemoving x.2 = true := fun x hx => h x (by simp [hx])
    cases cb with
    | plain thr => simp [Ev.runCBs, ih hr]
    | onceWrap thr nm sid =>
      simp only [Ev.nonRemoving] at he
      simp [Ev.runCBs, he, ih hr]

theorem lookupReg_eq_none (reg : Ev.Registry) (name : String)
    (h : name ∉ reg.map Prod.fst) : Ev.lookupReg reg name = none := by
  induction reg with
  | nil => rfl
  | cons e rest ih =>
    simp only [List.map_cons, List.mem_cons] at h
    push_neg at h
    simp [Ev.lookupReg, Ne.symm h.1, ih h.2]

theorem unbindReg_lookup_none (reg : Ev.Registry) (name : String) (id : Nat)
    (l : List (Nat × Ev.CB)) (hnd : (reg.map Prod.fst).Nodup)
    (hl : Ev.lookupReg reg name = some l) (hc : Ev.containsId l id = true)
    (h1 : l.length = 1) :
    Ev.lookupReg (Ev.unbindReg reg name id) name = none := by
  induction reg with
  | nil => simp [Ev.lookupReg] at hl
  | cons e rest ih =>
    obtain ⟨n, l0⟩ := e
    simp only [List.map_cons, List.nodup_cons] at hnd
    by_cases hn : n = name
    · subst hn
      simp [Ev.lookupReg] at hl
      subst hl
      simp [Ev.unbindReg, hc, h1, lookupReg_eq_none rest n hnd.1]
    · simp only [Ev.lookupReg, if_neg hn] at hl
      simp [Ev.unbindReg, hn, Ev.lookupReg, ih hnd.2 hl]

/-- C10: a listener registered with `once` whose callback throws is not
unbound — the exception is caught by `emit` before the wrapper reaches its
`unbind` call — so the same `once` listener is invoked again on every
subsequent `emit` of that event name (part 1, for a bus whose listeners for
that name all leave the registry unchanged when invoked); and a `once`
listener that completes without throwing is unbound and not invoked again
(part 2). -/
theorem c10_once_throwing_listener_stays :
    (∀ (s : Ev.EventsState) (name : String) (id : Nat) (l : List (Nat × Ev.CB)),
      s.suspendEvents = false →
      Ev.lookupReg s.registry name = some l →
      (∀ e ∈ l, Ev.nonRemoving e.2 = true) →
      (id, Ev.CB.onceWrap true name id) ∈ l →
      ∀ k : Nat,
        (fun t => (Ev.emit t name).1)^[k] s = s ∧
        id ∈ (Ev.emit ((fun t => (Ev.emit t name).1)^[k] s) name).2.invoked) ∧
    (∀ (s : Ev.EventsState) (name : String) (id : Nat),
      s.suspendEvents = false →
      (s.registry.map Prod.fst).Nodup →
      Ev.lookupReg s.registry name = some [(id, Ev.CB.onceWrap false name id)] →
      id ∈ (Ev.emit s name).2.invoked ∧
      Ev.lookupReg (Ev.emit s name).1.registry name = none ∧
      (Ev.emit (Ev.emit s name).1 name).2.invoked = []) := by
  constructor
  · intro s name id l hsus hl hnr hmem k
    have hstate : (Ev.emit s name).1 = s := by
      unfold Ev.emit
      simp [hsus, hl, runCBs_nonRemoving l s hnr]
    have hone : id ∈ (Ev.emit s name).2.invoked := by
      unfold Ev.emit
      simp [hsus, hl, runCBs_nonRemoving l s hnr]
      exact ⟨_, hmem⟩
    have hiter : (fun t => (Ev.emit t name).1)^[k] s = s := by
      induction k with
      | zero => rfl
      | succ k ihk => rw [Function.iterate_succ_apply, hstate, ihk]
    exact ⟨hiter, by rw [hiter]; exact hone⟩
  · intro s name id hsus hnd hl
    have h1 : Ev.emit s name =
        ({ s with registry := Ev.unbindReg s.registry name id },
         ⟨Ev.EmitRet.self, [id],
          ({ s with registry := Ev.unbindReg s.registry name id } : Ev.EventsState).emitters⟩) := by
      unfold Ev.emit
      simp [hsus, hl, Ev.runCBs]
    have hc : Ev.containsId [(id, Ev.CB.onceWrap false name id)] id = true := by
      simp [Ev.containsId]
    have hnone := unbindReg_lookup_none s.registry name id _ hnd hl hc rfl
    refine ⟨by rw [h1]; simp, by rw [h1]; exact hnone, ?_⟩
    rw [h1]
    unfold Ev.emit
    simp [hsus, hnone, Ev.runCBs]

theorem c10_once_throwing_listener_stays_witness :
    ((fun t => (Ev.emit t "x").1)^[2] ⟨[("x", [(5, Ev.CB.onceWrap true "x" 5)])], false, []⟩ =
      ⟨[("x", [(5, Ev.CB.onceWrap true "x" 5)])], false, []⟩) ∧
    5 ∈ (Ev.emit ((fun t => (Ev.emit t "x").1)^[2]
      ⟨[("x", [(5, Ev.CB.onceWrap true "x" 5)])], false, []⟩) "x").2.invoked :=
  c10_once_throwing_listener_stays.1
    ⟨[("x", [(5, Ev.CB.onceWrap true "x" 5)])], false, []⟩ "x" 5
    [(5, Ev.CB.onceWrap true "x" 5)] rfl rfl (by decide) (by decide) 2

/-- C6 (amended): `emit` returns `this` (self) whenever the bus is not
suspended; when `suspendEvents` is set, `emit` invokes no listener, forwards
to no attached emitter and leaves the bus unchanged — but it returns
`undefined`, not self, because the suspended path is a bare `return`
(src/events.js:92). -/
theorem c6_emit_returns_amended (s : Ev.EventsState) (name : String) :
    (Ev.emit s name).2.ret =
      (if s.suspendEvents then Ev.EmitRet.undef else Ev.EmitRet.self) ∧
    (s.suspendEvents = true →
      Ev.emit s name = (s, ⟨Ev.EmitRet.undef, [], []⟩)) := by
  unfold Ev.emit
  by_cases h : s.suspendEvents <;> simp [h]

theorem c6_emit_returns_amended_witness :
    Ev.emit ⟨[("x", [(1, Ev.CB.plain false)])], true, [2]⟩ "x" =
      (⟨[("x", [(1, Ev.CB.plain false)])], true, [2]⟩, ⟨Ev.EmitRet.undef, [], []⟩) :=
  (c6_emit_returns_amended ⟨[("x", [(1, Ev.CB.plain false)])], true, [2]⟩ "x").2 rfl

/-- C6 (counterexample): on a suspended bus with a listener and an attached
emitter, `emit` does not return self — it returns `undefined` — refuting the
claim that `emit` "still returns self" while suspended. -/
theorem c6_emit_suspended_counterexample :
    (Ev.emit ⟨[("x", [(1, Ev.CB.plain false)])], true, [2]⟩ "x").2.ret ≠
      Ev.EmitRet.self := by
  decide

/-- C4: whenever the re-entrant `executing` counter of the History stack is
positive, both the `canUndo` and the `canRedo` getter read false, regardless
of the underlying `_canUndo`/`_canRedo` flags. -/
theorem c4_executing_masks_undo_redo (s : Hist.HistoryState) (h : 0 < s.executing) :
    Hist.canUndo s = false ∧ Hist.canRedo s = false := by
  have hz : (s.executing == 0) = false := by
    simp
    omega
  simp [Hist.canUndo, Hist.canRedo, hz]

theorem c4_executing_masks_undo_redo_witness :
    0 < (⟨1, [], -1, true, true⟩ : Hist.HistoryState).executing ∧
    (Hist.canUndo ⟨1, [], -1, true, true⟩ = false ∧
     Hist.canRedo ⟨1, [], -1, true, true⟩ = false) :=
  ⟨by decide, c4_executing_masks_undo_redo ⟨1, [], -1, true, true⟩ (by decide)⟩

/-- C9: a synchronizer `write` whose operation carries none of the recognized
field combinations (`oi`; `li`+`ld`; `ld`; `li`; `lm`; `od`) dispatches to no
tree mutation method and leaves the tree state unchanged. -/
theorem c9_unrecognized_op_ignored (fuel : Nat) (root : List (String × Obs.IVal))
    (preLen : Nat) (pwd : Option (List String)) (op : Sync.SDBOp)
    (h1 : op.oi = none) (h2 : op.od = none) (h3 : op.li = none)
    (h4 : op.ld = none) (h5 : op.lm = none) :
    Sync.write fuel root preLen pwd op = some (.ok (root, none)) := by
  unfold Sync.write
  simp [h1, h2, h3, h4, h5]

theorem c9_unrecognized_op_ignored_witness :
    Sync.write 3 [("a", Obs.IVal.prim (JVal.num 1))] 0 none
      { p := [Sync.PSeg.s "a"] } =
      some (.ok ([("a", Obs.IVal.prim (JVal.num 1))], none)) :=
  c9_unrecognized_op_ignored 3 [("a", Obs.IVal.prim (JVal.num 1))] 0 none
    { p := [Sync.PSeg.s "a"] } rfl rfl rfl rfl rfl

/-- C5: `History.add` of a valid non-combining action truncates everything
past the cursor before appending (part 1); and in the scenario
`add a1; add a2; undo; add a3`, the action `a2` is removed from the stack and
no sequence of `redo()` calls ever executes its redo function again
(part 2). -/
theorem c5_add_truncates_branch :
    (∀ (s : Hist.HistoryState) (a : Hist.HAction),
      a.name ≠ "" → a.hasUndo = true → a.hasRedo = true → a.combine = false →
      (Hist.add s a).1.actions =
        s.actions.take (s.currentActionIndex + 1).toNat ++ [a]) ∧
    (∀ a1 a2 a3 : Hist.HAction,
      a1.name ≠ "" → a1.hasUndo = true → a1.hasRedo = true → a1.combine = false →
      a2.name ≠ "" → a2.hasUndo = true → a2.hasRedo = true → a2.combine = false →
      a3.name ≠ "" → a3.hasUndo = true → a3.hasRedo = true → a3.combine = false →
      a2 ≠ a1 → a2 ≠ a3 → a2.redoId ≠ a1.redoId → a2.redoId ≠ a3.redoId →
      a2 ∉ ((Hist.add (Hist.undo (Hist.add (Hist.add Hist.initial a1).1 a2).1).1 a3).1).actions ∧
      ∀ n : Nat, a2.redoId ∉
        Hist.redoSeq ((Hist.add (Hist.undo (Hist.add (Hist.add Hist.initial a1).1 a2).1).1 a3).1) n) := by
  have hgen : ∀ (s : Hist.HistoryState) (a : Hist.HAction),
      a.name ≠ "" → a.hasUndo = true → a.hasRedo = true → a.combine = false →
      (Hist.add s a).1.actions =
        s.actions.take (s.currentActionIndex + 1).toNat ++ [a] := by
    intro s a h1 h2 h3 h4
    unfold Hist.add
    simp only [h1, h2, h3, h4, if_neg, Bool.not_true, Bool.false_and, Bool.not_false, ite_false]
    cases hc : Hist.currentAction { s with actions := Hist.addActions s } with
    | none =>
      simp only [hc]
      show Hist.addActions s ++ [a] = _
      unfold Hist.addActions
      split
      · rfl
      · rename_i hq
        push_neg at hq
        have h5 : (s.currentActionIndex + 1).toNat = s.actions.length := by omega
        rw [h5, List.take_length]
    | some cur =>
      simp only [hc, h4, Bool.false_and, ite_false]
      show Hist.addActions s ++ [a] = _
      unfold Hist.addActions
      split
      · rfl
      · rename_i hq
        push_neg at hq
        have h5 : (s.currentActionIndex + 1).toNat = s.actions.length := by omega
        rw [h5, List.take_length]
  refine ⟨hgen, ?_⟩
  intro a1 a2 a3 h11 h12 h13 h14 h21 h22 h23 h24 h31 h32 h33 h34 hne1 hne3 hr1 hr3
  have hs1 : (Hist.add Hist.initial a1).1 =
      ⟨0, [a1], 0, true, false⟩ := by
    unfold Hist.add
    simp [h11, h12, h13, Hist.initial, Hist.addActions, Hist.currentAction]
  have hs2 : (Hist.add (⟨0, [a1], 0, true, false⟩ : Hist.HistoryState) a2).1 =
      ⟨0, [a1, a2], 1, true, false⟩ := by
    unfold Hist.add
    simp [h21, h22, h23, h24, Hist.addActions, Hist.currentAction]
  have hs3 : (Hist.undo (⟨0, [a1, a2], 1, true, false⟩ : Hist.HistoryState)).1 =
      ⟨0, [a1, a2], 0, true, true⟩ := by
    unfold Hist.undo
    simp [Hist.canUndo, Hist.currentAction]
  have hs4 : (Hist.add (⟨0, [a1, a2], 0, true, true⟩ : Hist.HistoryState) a3).1 =
      ⟨0, [a1, a3], 1, true, false⟩ := by
    unfold Hist.add
    simp [h31, h32, h33, h34, Hist.addActions, Hist.currentAction]
  rw [hs1, hs2, hs3, hs4]
  constructor
  · simp [hne1, hne3]
  · intro n hmem
    have h2 := Hist.redoSeq_subset n _ _ hmem
    simp at h2
    rcases h2 with h | h <;> omega

theorem putF_self (fs : List (String × Obs.IVal)) (k : String) (v : Obs.IVal)
    (h : Obs.lookupF fs k = some v) : Obs.putF fs k v = fs := by
  induction fs with
  | nil => simp [Obs.lookupF] at h
  | cons e rest ih =>
    obtain ⟨k0, v0⟩ := e
    by_cases hk : k0 = k
    · subst hk
      simp [Obs.lookupF] at h
      simp [Obs.putF, h]
    · simp [Obs.lookupF, hk] at h
      simp [Obs.putF, hk, ih h]

/-- C1 (counterexample): on the tree `{items: ['a']}`, the duplicate
`insert('items', 'a')` leaves the sequence unchanged but still returns true
and emits `items:insert` and `*:insert` (with value `undefined`), refuting
the claim that nothing is emitted. -/
theorem c1_duplicate_insert_counterexample :
    Obs.insertTop 50 [("items", Obs.IVal.iarr [Obs.Elem.eprim (JVal.str "a")])]
      "items" (JVal.str "a") none false none =
      some (.ok ([("items", Obs.IVal.iarr [Obs.Elem.eprim (JVal.str "a")])], some true,
        [Obs.Evt.eInsert "items" JVal.undef 0 false,
         Obs.Evt.wInsert "items" JVal.undef 0 false])) ∧
    ([Obs.Evt.eInsert "items" JVal.undef 0 false,
      Obs.Evt.wInsert "items" JVal.undef 0 false] : List Obs.Evt) ≠ [] :=
  ⟨rfl, by simp⟩

/-- C1 (amended): inserting a scalar value already present in the stored
sequence at a non-exempt path leaves the sequence unchanged — but `insert`
still returns true and still emits `<path>:insert` and `*:insert`, with value
`undefined` (the bare return of `_doInsert`) and the index it would have used
(part 1).  When the node-relative path is exempted via `pathsWithDuplicates`,
the duplicate is appended and the events carry the value (part 2). -/
theorem c1_duplicate_insert_amended :
    (∀ (fuel : Nat) (p : String) (fs : List (String × Obs.IVal)) (key path : String)
       (v : JVal) (ind : Option Int) (remote : Bool) (pwd : Option (List String))
       (es : List Obs.Elem),
      Obs.lookupF fs key = some (.iarr es) →
      Obs.elemOfRaw v = .eprim v → v ≠ .null →
      Obs.elemIndexOfHit es (.eprim v) = true →
      (match pwd with
       | none => True
       | some l => (if p = "" then key else p ++ "." ++ key) ∉ l) →
      Obs.insertFinal (fuel + 1) (.wsub p fs) key path v ind remote pwd =
        some (.ok (.wsub p fs, some true,
          [Obs.Evt.eInsert path JVal.undef
             (match ind with | some i => i | none => (es.length : Int) - 1) remote,
           Obs.Evt.wInsert path JVal.undef
             (match ind with | some i => i | none => (es.length : Int) - 1) remote]))) ∧
    (∀ (fuel : Nat) (p : String) (fs : List (String × Obs.IVal)) (key path : String)
       (v : JVal) (remote : Bool) (l : List String) (es : List Obs.Elem),
      Obs.lookupF fs key = some (.iarr es) →
      Obs.elemOfRaw v = .eprim v →
      (if p = "" then key else p ++ "." ++ key) ∈ l →
      Obs.insertFinal (fuel + 2) (.wsub p fs) key path v none remote (some l) =
        some (.ok (.wsub p (Obs.putF fs key (.iarr (es ++ [.eprim v]))), some true,
          [Obs.Evt.eInsert path v (es.length : Int) remote,
           Obs.Evt.wInsert path v (es.length : Int) remote]))) := by
  constructor
  · intro fuel p fs key path v ind remote pwd es hlk hsc hnn hdup hpwd
    have hput := putF_self fs key (.iarr es) hlk
    cases v with
    | null => exact absurd rfl hnn
    | arr xs => simp [Obs.elemOfRaw] at hsc
    | obj ofs => simp [Obs.elemOfRaw] at hsc
    | undef =>
      cases pwd with
      | none => simp [Obs.insertFinal, hlk, Obs.doInsert, hdup, hput]
      | some l =>
        have hpwd2 : (if p = "" then key else p ++ "." ++ key) ∉ l := hpwd
        simp [Obs.insertFinal, hlk, Obs.doInsert, hdup, hput, hpwd2]
    | bool b =>
      cases pwd with
      | none => simp [Obs.insertFinal, hlk, Obs.doInsert, hdup, hput]
      | some l =>
        have hpwd2 : (if p = "" then key else p ++ "." ++ key) ∉ l := hpwd
        simp [Obs.insertFinal, hlk, Obs.doInsert, hdup, hput, hpwd2]
    | num n =>
      cases pwd with
      | none => simp [Obs.insertFinal, hlk, Obs.doInsert, hdup, hput]
      | some l =>
        have hpwd2 : (if p = "" then key else p ++ "." ++ key) ∉ l := hpwd
        simp [Obs.insertFinal, hlk, Obs.doInsert, hdup, hput, hpwd2]
    | str t =>
      cases pwd with
      | none => simp [Obs.insertFinal, hlk, Obs.doInsert, hdup, hput]
      | some l =>
        have hpwd2 : (if p = "" then key else p ++ "." ++ key) ∉ l := hpwd
        simp [Obs.insertFinal, hlk, Obs.doInsert, hdup, hput, hpwd2]
  · intro fuel p fs key path v remote l es hlk hsc hcont
    have hlen : ((es.length + 1 : Nat) : Int) - 1 = (es.length : Int) := by omega
    cases v with
    | arr xs => simp [Obs.elemOfRaw] at hsc
    | obj ofs => simp [Obs.elemOfRaw] at hsc
    | null =>
      simp [Obs.insertFinal, hlk, Obs.doInsert, hcont, Obs.jsonElem, hlen]
    | undef =>
      simp [Obs.insertFinal, hlk, Obs.doInsert, hcont, Obs.jsonElem, hlen]
    | bool b =>
      simp [Obs.insertFinal, hlk, Obs.doInsert, hcont, Obs.jsonElem, hlen]
    | num n =>
      simp [Obs.insertFinal, hlk, Obs.doInsert, hcont, Obs.jsonElem, hlen]
    | str t =>
      simp [Obs.insertFinal, hlk, Obs.doInsert, hcont, Obs.jsonElem, hlen]

theorem c1_duplicate_insert_amended_witness :
    Obs.insertFinal 11 (.wsub "" [("items", Obs.IVal.iarr [Obs.Elem.eprim (JVal.str "a")])])
      "items" "items" (JVal.str "a") none false none =
      some (.ok (.wsub "" [("items", Obs.IVal.iarr [Obs.Elem.eprim (JVal.str "a")])], some true,
        [Obs.Evt.eInsert "items" JVal.undef 0 false,
         Obs.Evt.wInsert "items" JVal.undef 0 false])) :=
  c1_duplicate_insert_amended.1 10 "" [("items", Obs.IVal.iarr [Obs.Elem.eprim (JVal.str "a")])]
    "items" "items" (JVal.str "a") none false none [Obs.Elem.eprim (JVal.str "a")]
    rfl rfl (by simp) rfl trivial

/-- C7 (counterexample): on an empty tree, `unset('a.b')` does not return
false — the walk dereferences `undefined._data` and throws a TypeError —
refuting the claim for multi-segment paths with absent intermediate
segments. -/
theorem c7_unset_absent_counterexample :
    Obs.unsetTop 50 [] "a.b" false = some (.error ()) ∧
    Obs.unsetTop 50 [] "a.b" false ≠ some (.ok ([], false, [])) :=
  ⟨rfl, by
    rw [show Obs.unsetTop 50 [] "a.b" false = some (.error ()) from rfl]
    simp⟩

theorem unsetW_walk (key path : String) (remote : Bool) (r : Bool)
    (tr : List Obs.Evt) (ks : List String) :
    ∀ (g : Nat) (p0 : String) (fs0 : List (String × Obs.IVal))
      (p : String) (fs : List (String × Obs.IVal)),
      Obs.walkRecs p0 fs0 ks = some (p, fs) →
      Obs.unsetFinal g (.wsub p fs) key path remote = some (.ok (.wsub p fs, r, tr)) →
      Obs.unsetW (g + 1 + ks.length) (.wsub p0 fs0) (ks ++ [key]) path remote =
        some (.ok (.wsub p0 fs0, r, tr)) := by
  induction ks with
  | nil =>
    intro g p0 fs0 p fs hw hf
    simp [Obs.walkRecs] at hw
    obtain ⟨rfl, rfl⟩ := hw
    exact hf
  | cons k rest ih =>
    intro g p0 fs0 p fs hw hf
    rw [Obs.walkRecs] at hw
    cases hlk : Obs.lookupF fs0 k with
    | none => rw [hlk] at hw; simp at hw
    | some v =>
      rw [hlk] at hw
      cases v with
      | prim pv => simp at hw
      | iarr es => simp at hw
      | sub p2 f2 =>
        simp only [] at hw
        have hrec := ih g p2 f2 p fs hw hf
        have hput : Obs.putF fs0 k (Obs.unembedI (.wsub p2 f2)) = fs0 := by
          simpa [Obs.unembedI] using putF_self fs0 k (.sub p2 f2) hlk
        cases rest with
        | nil =>
          simp only [List.length_nil, Nat.add_zero, List.nil_append] at hrec
          show Obs.unsetW (g + 1 + 1) (.wsub p0 fs0) (k :: [key]) path remote = _
          rw [Obs.unsetW]
          simp only [hlk, Obs.embedI]
          rw [hrec]
          simp [hput]
          all_goals simp
        | cons r0 rs =>
          show Obs.unsetW ((g + 1 + (r0 :: rs).length) + 1) (.wsub p0 fs0)
            (k :: ((r0 :: rs) ++ [key])) path remote = _
          rw [Obs.unsetW]
          simp only [hlk, Obs.embedI]
          rw [hrec]
          simp [hput]
          all_goals simp

/-- C7 (amended): `unset(P)` on an absent field returns false without
emitting and leaves the tree unchanged, provided the walk itself survives:
part 1 states this for every resolved parent node that either lacks `_data`
(scalars, raw values, arrays) or lacks the final key; part 2 lifts it over
any path whose intermediate segments all resolve to present sub-records.
When an intermediate segment is absent (or `null`), `unset` instead throws a
TypeError (see the counterexample). -/
theorem c7_unset_absent_amended :
    (∀ (fuel : Nat) (node : Obs.WNode) (key path : String) (remote : Bool),
      (match node with
       | .wsub _ fs => Obs.hasK fs key = false
       | .wprim v => v ≠ .null ∧ v ≠ .undef
       | .wraw _ => True
       | .warr _ => True
       | .wundef => False) →
      Obs.unsetFinal fuel node key path remote = some (.ok (node, false, []))) ∧
    (∀ (g : Nat) (ks : List String) (root : List (String × Obs.IVal))
       (p : String) (fs : List (String × Obs.IVal)) (key path : String) (remote : Bool),
      splitPath path = ks ++ [key] →
      Obs.walkRecs "" root ks = some (p, fs) →
      Obs.hasK fs key = false →
      Obs.unsetTop (g + 1 + ks.length) root path remote =
        some (.ok (root, false, []))) := by
  have part1 : ∀ (fuel : Nat) (node : Obs.WNode) (key path : String) (remote : Bool),
      (match node with
       | .wsub _ fs => Obs.hasK fs key = false
       | .wprim v => v ≠ .null ∧ v ≠ .undef
       | .wraw _ => True
       | .warr _ => True
       | .wundef => False) →
      Obs.unsetFinal fuel node key path remote = some (.ok (node, false, [])) := by
    intro fuel node key path remote h
    cases node with
    | wundef => exact absurd h (by simp)
    | warr es => cases fuel <;> rfl
    | wraw v => cases fuel <;> rfl
    | wprim v =>
      obtain ⟨h1, h2⟩ := h
      cases v with
      | null => exact absurd rfl h1
      | undef => exact absurd rfl h2
      | bool b => cases fuel <;> rfl
      | num n => cases fuel <;> rfl
      | str s => cases fuel <;> rfl
      | arr xs => cases fuel <;> rfl
      | obj fs => cases fuel <;> rfl
    | wsub p fs =>
      have : Obs.lookupF fs key = none := by
        simp [Obs.hasK] at h
        exact Option.eq_none_of_isNone (by simpa using h)
      simp [Obs.unsetFinal, this]
  refine ⟨part1, ?_⟩
  intro g ks root p fs key path remote hsp hw hk
  have hfin := part1 g (.wsub p fs) key path remote hk
  have hwalk := unsetW_walk key path remote false [] ks g "" root p fs hw hfin
  unfold Obs.unsetTop
  rw [hsp, hwalk]
  rfl

theorem c7_unset_absent_amended_witness :
    Obs.unsetTop 12 [("a", Obs.IVal.sub "a" [("x", Obs.IVal.prim (JVal.num 1))])]
      "a.b" false =
      some (.ok ([("a", Obs.IVal.sub "a" [("x", Obs.IVal.prim (JVal.num 1))])],
        false, [])) :=
  c7_unset_absent_amended.2 10 ["a"]
    [("a", Obs.IVal.sub "a" [("x", Obs.IVal.prim (JVal.num 1))])]
    "a" [("x", Obs.IVal.prim (JVal.num 1))] "b" "a.b" false rfl rfl rfl

theorem take_min_eq (l : List α) (a : Nat) : l.take (min a l.length) = l.take a := by
  rcases Nat.le_total a l.length with h | h
  · rw [Nat.min_eq_left h]
  · rw [Nat.min_eq_right h, List.take_length, List.take_of_length_le h]

theorem drop_min_eq (l : List α) (a : Nat) : l.drop (min a l.length) = l.drop a := by
  rcases Nat.le_total a l.length with h | h
  · rw [Nat.min_eq_left h]
  · rw [Nat.min_eq_right h, List.drop_length, List.drop_of_length_le h]

/-- C8 (counterexample): `move('items', 0, 0)` on a two-element sequence does
not return a boolean — the guard is a bare `return`, so the call returns
`undefined` (modelled `none`), not false, refuting the claim that the no-op
cases return false. -/
theorem c8_move_returns_counterexample :
    Obs.moveTop 50
      [("items", Obs.IVal.iarr [Obs.Elem.eprim (JVal.str "a"), Obs.Elem.eprim (JVal.str "b")])]
      "items" 0 0 false =
      some (.ok
        ([("items", Obs.IVal.iarr [Obs.Elem.eprim (JVal.str "a"), Obs.Elem.eprim (JVal.str "b")])],
         none, [])) ∧
    (none : Option Bool) ≠ some false :=
  ⟨rfl, by simp⟩

/-- C8 (amended): on a stored sequence of length n, `move(P, indOld, indNew)`
is a no-op returning `undefined` (not false) when the indices are equal or
when either strictly exceeds n (part 1); for `0 ≤ indOld < n` with
`indNew = -1` (append) or `0 ≤ indNew ≤ n`, the element at `indOld` is
relocated to the resolved index (the post-removal length for `-1`, clamped to
the end for `indNew = n`), the call returns true and emits `<P>:move` and
`*:move` with `(value, resolvedIndNew, indOld, remote)` (part 2). -/
theorem c8_move_amended :
    (∀ (fuel : Nat) (p : String) (fs : List (String × Obs.IVal)) (key path : String)
       (indOld indNew : Int) (remote : Bool) (es : List Obs.Elem),
      Obs.lookupF fs key = some (.iarr es) →
      ((es.length : Int) < indOld ∨ (es.length : Int) < indNew ∨ indOld = indNew) →
      Obs.moveFinal fuel (.wsub p fs) key path indOld indNew remote =
        some (.ok (.wsub p fs, none, []))) ∧
    (∀ (fuel : Nat) (p : String) (fs : List (String × Obs.IVal)) (key path : String)
       (indOld indNew : Int) (remote : Bool) (es : List Obs.Elem) (e : Obs.Elem) (ej : JVal),
      Obs.lookupF fs key = some (.iarr es) →
      0 ≤ indOld → indOld < (es.length : Int) → indOld ≠ indNew →
      (indNew = -1 ∨ (0 ≤ indNew ∧ indNew ≤ (es.length : Int))) →
      es.get? indOld.toNat = some e →
      Obs.jsonElem fuel e = some ej →
      Obs.moveFinal fuel (.wsub p fs) key path indOld indNew remote =
        some (.ok (.wsub p (Obs.putF fs key (.iarr
            ((es.eraseIdx indOld.toNat).take
                (if indNew = -1 then (es.length : Int) - 1 else indNew).toNat ++
              e :: (es.eraseIdx indOld.toNat).drop
                (if indNew = -1 then (es.length : Int) - 1 else indNew).toNat))),
          some true,
          [Obs.Evt.eMove path ej (if indNew = -1 then (es.length : Int) - 1 else indNew)
            indOld remote,
           Obs.Evt.wMove path ej (if indNew = -1 then (es.length : Int) - 1 else indNew)
            indOld remote]))) := by
  constructor
  · intro fuel p fs key path indOld indNew remote es hlk h
    simp only [Obs.moveFinal, hlk]
    split
    · rfl
    · rename_i hq
      simp only [Bool.or_eq_true, decide_eq_true_eq, not_or] at hq
      rcases h with h | h | h <;> omega
  · intro fuel p fs key path indOld indNew remote es e ej hlk h0 hlt hne hr he hj
    have hlen1 : (es.eraseIdx indOld.toNat).length = es.length - 1 := by
      rw [List.length_eraseIdx, if_pos (by omega)]
    have hlen0 : 1 ≤ es.length := by omega
    simp only [Obs.moveFinal, hlk]
    split
    · rename_i hq
      simp only [Bool.or_eq_true, decide_eq_true_eq] at hq
      rcases hq with h | h | h <;> omega
    · rw [he]
      simp only [Option.getD_some]
      have hrem : Obs.jsSpliceRemove1 es indOld = es.eraseIdx indOld.toNat := by
        unfold Obs.jsSpliceRemove1
        rw [if_neg (by omega)]
      rw [hrem]
      have hind2 : (if indNew = -1 then ((es.eraseIdx indOld.toNat).length : Int) else indNew) =
          (if indNew = -1 then (es.length : Int) - 1 else indNew) := by
        split <;> simp [hlen1] <;> omega
      rw [hind2]
      have hins : Obs.jsSpliceInsertE (es.eraseIdx indOld.toNat)
          (if indNew = -1 then (es.length : Int) - 1 else indNew) e =
          (es.eraseIdx indOld.toNat).take
              (if indNew = -1 then (es.length : Int) - 1 else indNew).toNat ++
            e :: (es.eraseIdx indOld.toNat).drop
              (if indNew = -1 then (es.length : Int) - 1 else indNew).toNat := by
        unfold Obs.jsSpliceInsertE
        rw [if_neg (by split <;> omega)]
        simp only [take_min_eq, drop_min_eq, List.append_assoc, List.singleton_append]
      rw [hins, hj]
      rfl

theorem c8_move_amended_witness :
    Obs.moveFinal 10
      (.wsub "" [("items", Obs.IVal.iarr
        [Obs.Elem.eprim (JVal.str "a"), Obs.Elem.eprim (JVal.str "b"),
         Obs.Elem.eprim (JVal.str "c")])])
      "items" "items" 0 (-1) false =
      some (.ok (.wsub "" [("items", Obs.IVal.iarr
        [Obs.Elem.eprim (JVal.str "b"), Obs.Elem.eprim (JVal.str "c"),
         Obs.Elem.eprim (JVal.str "a")])],
        some true,
        [Obs.Evt.eMove "items" (JVal.str "a") 2 0 false,
         Obs.Evt.wMove "items" (JVal.str "a") 2 0 false])) := by
  have h := c8_move_amended.2 10 ""
    [("items", Obs.IVal.iarr
      [Obs.Elem.eprim (JVal.str "a"), Obs.Elem.eprim (JVal.str "b"),
       Obs.Elem.eprim (JVal.str "c")])]
    "items" "items" 0 (-1) false
    [Obs.Elem.eprim (JVal.str "a"), Obs.Elem.eprim (JVal.str "b"),
     Obs.Elem.eprim (JVal.str "c")]
    (Obs.Elem.eprim (JVal.str "a")) (JVal.str "a")
    rfl (by decide) (by decide) (by decide) (Or.inl rfl) rfl rfl
  exact h

theorem c5_add_truncates_branch_witness :
    (⟨2, "b", true, true, false, 12, 22⟩ : Hist.HAction) ∉
      ((Hist.add (Hist.undo (Hist.add (Hist.add Hist.initial
        ⟨1, "a", true, true, false, 11, 21⟩).1
        ⟨2, "b", true, true, false, 12, 22⟩).1).1
        ⟨3, "c", true, true, false, 13, 23⟩).1).actions ∧
    (22 : Nat) ∉
      Hist.redoSeq ((Hist.add (Hist.undo (Hist.add (Hist.add Hist.initial
        ⟨1, "a", true, true, false, 11, 21⟩).1
        ⟨2, "b", true, true, false, 12, 22⟩).1).1
        ⟨3, "c", true, true, false, 13, 23⟩).1) 5 := by
  have h := c5_add_truncates_branch.2
    ⟨1, "a", true, true, false, 11, 21⟩
    ⟨2, "b", true, true, false, 12, 22⟩
    ⟨3, "c", true, true, false, 13, 23⟩
    (by decide) rfl rfl rfl (by decide) rfl rfl rfl (by decide) rfl rfl rfl
    (by decide) (by decide) (by decide) (by decide)
  exact ⟨h.1, h.2 5⟩

namespace Obs

theorem jsonMono : ∀ g : Nat,
    (∀ v a, jsonIVal g v = some a → ∀ g2, g ≤ g2 → jsonIVal g2 v = some a) ∧
    (∀ fs a, jsonFields g fs = some a → ∀ g2, g ≤ g2 → jsonFields g2 fs = some a) ∧
    (∀ es a, jsonElems g es = some a → ∀ g2, g ≤ g2 → jsonElems g2 es = some a) ∧
    (∀ e a, jsonElem g e = some a → ∀ g2, g ≤ g2 → jsonElem g2 e = some a) := by
  intro g
  induction g with
  | zero =>
    refine ⟨?_, ?_, ?_, ?_⟩ <;> intro x a h <;> simp [jsonIVal, jsonFields, jsonElems, jsonElem] at h
  | succ g ih =>
    obtain ⟨ihv, ihf, ihe, ih1⟩ := ih
    refine ⟨?_, ?_, ?_, ?_⟩
    · intro v a h g2 hle
      obtain ⟨g3, rfl⟩ : ∃ g3, g2 = g3 + 1 := ⟨g2 - 1, by omega⟩
      have hle3 : g ≤ g3 := by omega
      cases v with
      | prim p => simpa [jsonIVal] using h
      | sub p fs =>
        simp only [jsonIVal, Option.map_eq_some'] at h ⊢
        obtain ⟨fa, hfa, rfl⟩ := h
        exact ⟨fa, ihf fs fa hfa g3 hle3, rfl⟩
      | iarr es =>
        simp only [jsonIVal, Option.map_eq_some'] at h ⊢
        obtain ⟨ea, hea, rfl⟩ := h
        exact ⟨ea, ihe es ea hea g3 hle3, rfl⟩
    · intro fs a h g2 hle
      obtain ⟨g3, rfl⟩ : ∃ g3, g2 = g3 + 1 := ⟨g2 - 1, by omega⟩
      have hle3 : g ≤ g3 := by omega
      cases fs with
      | nil => simpa [jsonFields] using h
      | cons kv rest =>
        obtain ⟨k, v⟩ := kv
        simp only [jsonFields, Option.bind_eq_bind, Option.bind_eq_some, Option.pure_def, Option.some.injEq] at h ⊢
        obtain ⟨jv, hjv, jr, hjr, rfl⟩ := h
        exact ⟨jv, ihv v jv hjv g3 hle3, jr, ihf rest jr hjr g3 hle3, rfl⟩
    · intro es a h g2 hle
      obtain ⟨g3, rfl⟩ : ∃ g3, g2 = g3 + 1 := ⟨g2 - 1, by omega⟩
      have hle3 : g ≤ g3 := by omega
      cases es with
      | nil => simpa [jsonElems] using h
      | cons e rest =>
        simp only [jsonElems, Option.bind_eq_bind, Option.bind_eq_some, Option.pure_def, Option.some.injEq] at h ⊢
        obtain ⟨je, hje, jr, hjr, rfl⟩ := h
        exact ⟨je, ih1 e je hje g3 hle3, jr, ihe rest jr hjr g3 hle3, rfl⟩
    · intro e a h g2 hle
      obtain ⟨g3, rfl⟩ : ∃ g3, g2 = g3 + 1 := ⟨g2 - 1, by omega⟩
      have hle3 : g ≤ g3 := by omega
      cases e with
      | eprim p => simpa [jsonElem] using h
      | eraw v => simpa [jsonElem] using h
      | eobs fs =>
        simp only [jsonElem, Option.map_eq_some'] at h ⊢
        obtain ⟨fa, hfa, rfl⟩ := h
        exact ⟨fa, ihf fs fa hfa g3 hle3, rfl⟩

theorem jsonFields_exists_append
    (l1 l2 : List (String × IVal)) (o1 o2 : List (String × JVal))
    (h1 : ∃ g, jsonFields g l1 = some o1) (h2 : ∃ g, jsonFields g l2 = some o2) :
    ∃ g, jsonFields g (l1 ++ l2) = some (o1 ++ o2) := by
  induction l1 generalizing o1 with
  | nil =>
    obtain ⟨g1, hg1⟩ := h1
    obtain ⟨g2, hg2⟩ := h2
    cases g1 with
    | zero => simp [jsonFields] at hg1
    | succ g1 =>
      simp [jsonFields] at hg1
      subst hg1
      exact ⟨g2, by simpa using hg2⟩
  | cons kv rest ih =>
    obtain ⟨k, v⟩ := kv
    obtain ⟨g1, hg1⟩ := h1
    cases g1 with
    | zero => simp [jsonFields] at hg1
    | succ g1 =>
      simp only [jsonFields, Option.bind_eq_bind, Option.bind_eq_some, Option.pure_def, Option.some.injEq] at hg1
      obtain ⟨jv, hjv, jr, hjr, rfl⟩ := hg1
      obtain ⟨g3, hg3⟩ := ih jr ⟨g1, hjr⟩
      refine ⟨max g1 g3 + 1, ?_⟩
      simp only [List.cons_append, jsonFields, Option.bind_eq_bind, Option.bind_eq_some,
        Option.pure_def, Option.some.injEq]
      exact ⟨jv, (jsonMono g1).1 v jv hjv _ (by omega), jr ++ o2,
        (jsonMono g3).2.1 _ _ hg3 _ (by omega), rfl⟩

theorem jsonElems_exists_cons (e : Elem) (es : List Elem) (je : JVal) (jes : List JVal)
    (h1 : ∃ g, jsonElem g e = some je) (h2 : ∃ g, jsonElems g es = some jes) :
    ∃ g, jsonElems g (e :: es) = some (je :: jes) := by
  obtain ⟨g1, hg1⟩ := h1
  obtain ⟨g2, hg2⟩ := h2
  refine ⟨max g1 g2 + 1, ?_⟩
  simp only [jsonElems, Option.bind_eq_bind, Option.bind_eq_some, Option.pure_def,
    Option.some.injEq]
  exact ⟨je, (jsonMono g1).2.2.2 e je hg1 _ (by omega), jes,
    (jsonMono g2).2.2.1 es jes hg2 _ (by omega), rfl⟩

theorem lookupF_append (l1 l2 : List (String × IVal)) (k : String) :
    lookupF (l1 ++ l2) k = ((lookupF l1 k).orElse (fun _ => lookupF l2 k)) := by
  induction l1 with
  | nil => simp [lookupF]
  | cons kv rest ih =>
    obtain ⟨k0, v0⟩ := kv
    by_cases hk : k0 = k <;> simp [lookupF, hk, ih]

theorem hasK_append_single (l : List (String × IVal)) (k k2 : String) (w : IVal)
    (h : hasK l k2 = false) (hne : k ≠ k2) :
    hasK (l ++ [(k, w)]) k2 = false := by
  simp only [hasK, lookupF_append] at h ⊢
  cases hl : lookupF l k2 with
  | some v => simp [hasK, hl] at h
  | none => simp [hl, lookupF, hne]

/-- `set` of a non-object value at an absent key of a record stores a scalar
leaf and returns true (the previously-absent branch of `Observer.set`,
src/observer.ts:362-381). -/
theorem setW_fresh_scalar (f : Nat) (p : String) (fields : List (String × IVal))
    (k path : String) (v : JVal) (force remote : Bool) (out : WNode × Bool × List Evt)
    (hobj : objecty v = false) (habs : lookupF fields k = none)
    (hs : setW f (.wsub p fields) [k] path v force remote = some (.ok out)) :
    out = (.wsub p (fields ++ [(k, .prim v)]), true,
      [Evt.eSet path v .null remote, Evt.wSet path v .null remote]) := by
  cases f with
  | zero => simp [setW] at hs
  | succ f =>
    rw [show setW (f + 1) (.wsub p fields) [k] path v force remote =
      setFinal f (.wsub p fields) k path v force remote from rfl] at hs
    cases f with
    | zero => simp [setFinal] at hs
    | succ f =>
      simp only [setFinal, habs, hobj] at hs
      cases v <;> simp [objecty] at hobj hs <;> simp_all

theorem jsonFields_single (k : String) (w : IVal) (v : JVal)
    (h : ∃ g, jsonIVal g w = some v) : ∃ g, jsonFields g [(k, w)] = some [(k, v)] := by
  obtain ⟨g, hg⟩ := h
  have hg2 : jsonIVal (g + 1) w = some v := (jsonMono g).1 w v hg (g + 1) (by omega)
  exact ⟨g + 2, by simp [jsonFields, hg2]⟩

theorem c3_main : ∀ f : Nat,
    (∀ dfs fs, GoodJ (.obj dfs) →
      constructFields f (.obj dfs) = some fs →
      ∃ g, jsonFields g fs = some dfs) ∧
    (∀ dfs acc accJ out tr, GoodJ (.obj dfs) →
      (∀ k ∈ dfs.map Prod.fst, hasK acc k = false) →
      (∃ g, jsonFields g acc = some accJ) →
      patchFields f acc (.obj dfs) false = some (.ok (out, tr)) →
      ∃ g, jsonFields g out = some (accJ ++ dfs)) ∧
    (∀ dfs acc accJ out tr, GoodJ (.obj dfs) →
      (∀ k ∈ dfs.map Prod.fst, hasK acc k = false) →
      (∃ g, jsonFields g acc = some accJ) →
      patchGo f acc dfs (.obj dfs) false = some (.ok (out, tr)) →
      ∃ g, jsonFields g out = some (accJ ++ dfs)) ∧
    (∀ dfs acc accJ out tr,
      (dfs.map Prod.fst).Nodup →
      (∀ k ∈ dfs.map Prod.fst, splitPath k = [k]) →
      (∀ x ∈ dfs, GoodJ x.2) →
      (∀ k ∈ dfs.map Prod.fst, hasK acc k = false) →
      (∃ g, jsonFields g acc = some accJ) →
      patchPhase1 f acc dfs = some (.ok (out, tr)) →
      ∃ g, jsonFields g out = some (accJ ++ dfs)) ∧
    (∀ tpath acc k v remote out tr, GoodJ v →
      prepareAdd f tpath acc k v remote = some (out, tr) →
      ∃ w, out = acc ++ [(k, w)] ∧ ∃ g, jsonIVal g w = some v) ∧
    (∀ path acc vfs remote accJ out tr,
      (∀ x ∈ vfs, GoodJ x.2) →
      (∃ g, jsonFields g acc = some accJ) →
      prepObjFields f path acc vfs remote = some (out, tr) →
      ∃ g, jsonFields g out = some (accJ ++ vfs)) ∧
    (∀ path i xs remote es tr,
      (∀ x ∈ xs, GoodElemJ x) →
      prepArrElems f path i xs remote = some (es, tr) →
      ∃ g, jsonElems g es = some xs) := by
  intro f
  induction f with
  | zero =>
    refine ⟨?_, ?_, ?_, ?_, ?_, ?_, ?_⟩ <;> intros <;>
      simp_all [constructFields, patchFields, patchGo, patchPhase1, prepareAdd,
        prepObjFields, prepArrElems]
  | succ f ih =>
    obtain ⟨ihA, ihF, ihG, ihB, ihC, ihD, ihE⟩ := ih
    have partC : ∀ tpath acc k v remote out tr, GoodJ v →
        prepareAdd (f + 1) tpath acc k v remote = some (out, tr) →
        ∃ w, out = acc ++ [(k, w)] ∧ ∃ g, jsonIVal g w = some v := by
      intro tpath acc k v remote out tr hgv hp
      cases v with
      | arr xs =>
        have hels : ∀ x ∈ xs, GoodElemJ x := by
          cases hgv with
          | scal _ h => exact h.elim
          | arr _ h => exact h
        simp only [prepareAdd, Option.bind_eq_bind, Option.bind_eq_some, Option.pure_def,
          Option.some.injEq] at hp
        obtain ⟨r, hr, aj, haj, heq⟩ := hp
        obtain ⟨rfl, -⟩ := Prod.mk.inj heq
        obtain ⟨g, hg⟩ := ihE _ 0 xs remote r.1 r.2 hels hr
        exact ⟨.iarr r.1, rfl, g + 1, by simp [jsonIVal, hg]⟩
      | obj vfs =>
        have hflds : ∀ x ∈ vfs, GoodJ x.2 := by
          cases hgv with
          | scal _ h => exact h.elim
          | obj _ _ _ h => exact h
        simp only [prepareAdd, Option.bind_eq_bind, Option.bind_eq_some, Option.pure_def,
          Option.some.injEq] at hp
        obtain ⟨r, hr, heq⟩ := hp
        obtain ⟨rfl, -⟩ := Prod.mk.inj heq
        obtain ⟨g, hg⟩ := ihD _ [] vfs remote [] r.1 r.2 hflds ⟨1, rfl⟩ hr
        refine ⟨_, rfl, g + 1, ?_⟩
        simp only [jsonIVal]
        simp [hg]
      | null =>
        simp only [prepareAdd, Option.some.injEq] at hp
        obtain ⟨rfl, -⟩ := Prod.mk.inj hp
        exact ⟨.prim .null, rfl, 1, rfl⟩
      | undef =>
        cases hgv with
        | scal _ h => exact h.elim
      | bool b =>
        simp only [prepareAdd, Option.some.injEq] at hp
        obtain ⟨rfl, -⟩ := Prod.mk.inj hp
        exact ⟨.prim (.bool b), rfl, 1, rfl⟩
      | num n =>
        simp only [prepareAdd, Option.some.injEq] at hp
        obtain ⟨rfl, -⟩ := Prod.mk.inj hp
        exact ⟨.prim (.num n), rfl, 1, rfl⟩
      | str s =>
        simp only [prepareAdd, Option.some.injEq] at hp
        obtain ⟨rfl, -⟩ := Prod.mk.inj hp
        exact ⟨.prim (.str s), rfl, 1, rfl⟩
    have partD : ∀ path acc vfs remote accJ out tr,
        (∀ x ∈ vfs, GoodJ x.2) →
        (∃ g, jsonFields g acc = some accJ) →
        prepObjFields (f + 1) path acc vfs remote = some (out, tr) →
        ∃ g, jsonFields g out = some (accJ ++ vfs) := by
      intro path acc vfs remote accJ out tr hg hacc hp
      cases vfs with
      | nil =>
        simp only [prepObjFields, Option.some.injEq] at hp
        obtain ⟨rfl, -⟩ := Prod.mk.inj hp
        simpa using hacc
      | cons kv rest =>
        obtain ⟨k, v⟩ := kv
        have hgv : GoodJ v := hg (k, v) (by simp)
        have hgr : ∀ x ∈ rest, GoodJ x.2 := fun x hx => hg x (by simp [hx])
        by_cases hob : objecty v = true
        · simp only [prepObjFields, hob, if_true, Option.bind_eq_bind, Option.bind_eq_some,
            Option.pure_def, Option.some.injEq] at hp
          obtain ⟨r1, hr1, r2, hr2, heq⟩ := hp
          obtain ⟨rfl, -⟩ := Prod.mk.inj heq
          obtain ⟨w, hshape, hw⟩ := ihC path acc k v remote r1.1 r1.2 hgv hr1
          rw [hshape] at hr2
          have hacc2 : ∃ g, jsonFields g (acc ++ [(k, w)]) = some (accJ ++ [(k, v)]) :=
            jsonFields_exists_append acc [(k, w)] accJ [(k, v)] hacc
              (jsonFields_single k w v hw)
          have hres := ihD path (acc ++ [(k, w)]) rest remote (accJ ++ [(k, v)]) r2.1 r2.2
            hgr hacc2 hr2
          simpa using hres
        · have hob' : objecty v = false := by simpa using hob
          simp only [prepObjFields, hob', Bool.false_eq_true, if_false, Option.bind_eq_bind,
            Option.bind_eq_some, Option.pure_def, Option.some.injEq] at hp
          obtain ⟨r2, hr2, heq⟩ := hp
          obtain ⟨rfl, -⟩ := Prod.mk.inj heq
          have hacc2 : ∃ g, jsonFields g (acc ++ [(k, .prim v)]) = some (accJ ++ [(k, v)]) :=
            jsonFields_exists_append acc [(k, .prim v)] accJ [(k, v)] hacc
              (jsonFields_single k (.prim v) v ⟨1, rfl⟩)
          have hres := ihD path (acc ++ [(k, .prim v)]) rest remote (accJ ++ [(k, v)]) r2.1 r2.2
            hgr hacc2 hr2
          simpa using hres
    have partE : ∀ path i xs remote es tr,
        (∀ x ∈ xs, GoodElemJ x) →
        prepArrElems (f + 1) path i xs remote = some (es, tr) →
        ∃ g, jsonElems g es = some xs := by
      intro path i xs remote es tr hg hp
      cases xs with
      | nil =>
        simp only [prepArrElems, Option.some.injEq] at hp
        obtain ⟨rfl, -⟩ := Prod.mk.inj hp
        exact ⟨1, rfl⟩
      | cons x rest =>
        have hgr : ∀ y ∈ rest, GoodElemJ y := fun y hy => hg y (by simp [hy])
        cases x with
        | obj fs0 =>
          have hgo : GoodJ (.obj fs0) := by
            have := hg (.obj fs0) (by simp)
            cases this with
            | notObj _ h => exact h.elim
            | obj _ h => exact h
          simp only [prepArrElems, Option.bind_eq_bind, Option.bind_eq_some, Option.pure_def,
            Option.some.injEq] at hp
          obtain ⟨cf, hcf, r, hr, heq⟩ := hp
          obtain ⟨rfl, -⟩ := Prod.mk.inj heq
          obtain ⟨g1, hg1⟩ := ihA fs0 cf hgo hcf
          exact jsonElems_exists_cons _ _ _ _ ⟨g1 + 1, by simp [jsonElem, hg1]⟩
            (ihE path (i + 1) rest remote r.1 r.2 hgr hr)
        | arr ys =>
          simp only [prepArrElems, Option.bind_eq_bind, Option.bind_eq_some, Option.pure_def,
            Option.some.injEq] at hp
          obtain ⟨r, hr, heq⟩ := hp
          obtain ⟨rfl, -⟩ := Prod.mk.inj heq
          exact jsonElems_exists_cons _ _ _ _ ⟨1, rfl⟩
            (ihE path (i + 1) rest remote r.1 r.2 hgr hr)
        | null =>
          simp only [prepArrElems, Option.bind_eq_bind, Option.bind_eq_some, Option.pure_def,
            Option.some.injEq] at hp
          obtain ⟨r, hr, heq⟩ := hp
          obtain ⟨rfl, -⟩ := Prod.mk.inj heq
          exact jsonElems_exists_cons _ _ _ _ ⟨1, rfl⟩
            (ihE path (i + 1) rest remote r.1 r.2 hgr hr)
        | undef =>
          simp only [prepArrElems, Option.bind_eq_bind, Option.bind_eq_some, Option.pure_def,
            Option.some.injEq] at hp
          obtain ⟨r, hr, heq⟩ := hp
          obtain ⟨rfl, -⟩ := Prod.mk.inj heq
          exact jsonElems_exists_cons _ _ _ _ ⟨1, rfl⟩
            (ihE path (i + 1) rest remote r.1 r.2 hgr hr)
        | bool b =>
          simp only [prepArrElems, Option.bind_eq_bind, Option.bind_eq_some, Option.pure_def,
            Option.some.injEq] at hp
          obtain ⟨r, hr, heq⟩ := hp
          obtain ⟨rfl, -⟩ := Prod.mk.inj heq
          exact jsonElems_exists_cons _ _ _ _ ⟨1, rfl⟩
            (ihE path (i + 1) rest remote r.1 r.2 hgr hr)
        | num n =>
          simp only [prepArrElems, Option.bind_eq_bind, Option.bind_eq_some, Option.pure_def,
            Option.some.injEq] at hp
          obtain ⟨r, hr, heq⟩ := hp
          obtain ⟨rfl, -⟩ := Prod.mk.inj heq
          exact jsonElems_exists_cons _ _ _ _ ⟨1, rfl⟩
            (ihE path (i + 1) rest remote r.1 r.2 hgr hr)
        | str s =>
          simp only [prepArrElems, Option.bind_eq_bind, Option.bind_eq_some, Option.pure_def,
            Option.some.injEq] at hp
          obtain ⟨r, hr, heq⟩ := hp
          obtain ⟨rfl, -⟩ := Prod.mk.inj heq
          exact jsonElems_exists_cons _ _ _ _ ⟨1, rfl⟩
            (ihE path (i + 1) rest remote r.1 r.2 hgr hr)
    have partB : ∀ dfs acc accJ out tr,
        (dfs.map Prod.fst).Nodup →
        (∀ k ∈ dfs.map Prod.fst, splitPath k = [k]) →
        (∀ x ∈ dfs, GoodJ x.2) →
        (∀ k ∈ dfs.map Prod.fst, hasK acc k = false) →
        (∃ g, jsonFields g acc = some accJ) →
        patchPhase1 (f + 1) acc dfs = some (.ok (out, tr)) →
        ∃ g, jsonFields g out = some (accJ ++ dfs) := by
      intro dfs acc accJ out tr hnd hsp hg hdisj hacc hp
      cases dfs with
      | nil =>
        simp only [patchPhase1, Option.some.injEq, Except.ok.injEq] at hp
        obtain ⟨rfl, -⟩ := Prod.mk.inj hp
        simpa using hacc
      | cons kv rest =>
        obtain ⟨k, v⟩ := kv
        have hgv : GoodJ v := hg (k, v) (by simp)
        have hgr : ∀ x ∈ rest, GoodJ x.2 := fun x hx => hg x (by simp [hx])
        have hknotin : k ∉ rest.map Prod.fst := by
          simp only [List.map_cons, List.nodup_cons] at hnd
          exact hnd.1
        have hndr : (rest.map Prod.fst).Nodup := by
          simp only [List.map_cons, List.nodup_cons] at hnd
          exact hnd.2
        have hkabs : hasK acc k = false := hdisj k (by simp)
        have hspk : splitPath k = [k] := hsp k (by simp)
        have hspr : ∀ k2 ∈ rest.map Prod.fst, splitPath k2 = [k2] :=
          fun k2 hk2 => hsp k2 (by simp [hk2])
        have hdisjmk : ∀ (w : IVal) (k2 : String), k2 ∈ rest.map Prod.fst →
            hasK (acc ++ [(k, w)]) k2 = false := by
          intro w k2 hk2
          exact hasK_append_single acc k k2 w (hdisj k2 (by simp [hk2]))
            (fun he => hknotin (he ▸ hk2))
        by_cases hob : objecty v = true
        · simp only [patchPhase1, hob, hkabs, Bool.not_false, Bool.and_true, Bool.true_and,
            Bool.and_self, if_true, Option.bind_eq_bind, Option.bind_eq_some] at hp
          obtain ⟨r1, hr1, r2, hr2, heq⟩ := hp
          obtain ⟨w, hshape, hw⟩ := ihC "" acc k v false r1.1 r1.2 hgv hr1
          rw [hshape] at hr2
          cases r2 with
          | error e => simp at heq
          | ok val2 =>
            obtain ⟨f2, t2⟩ := val2
            simp only [Option.pure_def, Option.some.injEq, Except.ok.injEq,
              Prod.mk.injEq] at heq
            obtain ⟨h1, -⟩ := heq
            have hacc2 : ∃ g, jsonFields g (acc ++ [(k, w)]) = some (accJ ++ [(k, v)]) :=
              jsonFields_exists_append acc [(k, w)] accJ [(k, v)] hacc
                (jsonFields_single k w v hw)
            have hres := ihB rest (acc ++ [(k, w)]) (accJ ++ [(k, v)]) f2 t2 hndr hspr hgr
              (fun k2 hk2 => hdisjmk w k2 hk2) hacc2 hr2
            rw [← h1]
            simpa using hres
        · have hob' : objecty v = false := by simpa using hob
          have hlk : lookupF acc k = none := by
            simp only [hasK] at hkabs
            exact Option.eq_none_of_isNone (by simpa using hkabs)
          have hstr : strictEqIV (lookupF acc k) v = false := by
            rw [hlk]
            cases v <;> simp [strictEqIV, scalarEq, objecty] at hob' ⊢
            cases hgv with
            | scal _ h => exact h.elim
          simp only [patchPhase1, hob', hkabs, hspk, Bool.false_and, Bool.false_eq_true,
            if_false, hstr, Bool.not_false, if_true, Option.bind_eq_bind,
            Option.bind_eq_some] at hp
          obtain ⟨r1, hr1, hp2⟩ := hp
          cases r1 with
          | error e => simp at hp2
          | ok val1 =>
            have hout := setW_fresh_scalar f "" acc k k v false false val1
              hob' hlk hr1
            subst hout
            simp only [Option.bind_eq_bind, Option.bind_eq_some] at hp2
            obtain ⟨r2, hr2, heq⟩ := hp2
            cases r2 with
            | error e => simp at heq
            | ok val2 =>
              obtain ⟨f2, t2⟩ := val2
              simp only [Option.pure_def, Option.some.injEq, Except.ok.injEq,
                Prod.mk.injEq] at heq
              obtain ⟨h1, -⟩ := heq
              have hacc2 : ∃ g, jsonFields g (acc ++ [(k, .prim v)]) =
                  some (accJ ++ [(k, v)]) :=
                jsonFields_exists_append acc [(k, .prim v)] accJ [(k, v)] hacc
                  (jsonFields_single k (.prim v) v ⟨1, rfl⟩)
              have hres := ihB rest (acc ++ [(k, .prim v)]) (accJ ++ [(k, v)]) f2 t2 hndr
                hspr hgr (fun k2 hk2 => hdisjmk (.prim v) k2 hk2) hacc2 hr2
              rw [← h1]
              simpa using hres
    have partG : ∀ dfs acc accJ out tr, GoodJ (.obj dfs) →
        (∀ k ∈ dfs.map Prod.fst, hasK acc k = false) →
        (∃ g, jsonFields g acc = some accJ) →
        patchGo (f + 1) acc dfs (.obj dfs) false = some (.ok (out, tr)) →
        ∃ g, jsonFields g out = some (accJ ++ dfs) := by
      intro dfs acc accJ out tr hgo hdisj hacc hp
      have hnd : (dfs.map Prod.fst).Nodup := by
        cases hgo with
        | scal _ h => exact h.elim
        | obj _ h _ _ => exact h
      have hsp : ∀ k ∈ dfs.map Prod.fst, splitPath k = [k] := by
        cases hgo with
        | scal _ h => exact h.elim
        | obj _ _ h _ => exact h
      have hflds : ∀ x ∈ dfs, GoodJ x.2 := by
        cases hgo with
        | scal _ h => exact h.elim
        | obj _ _ _ h => exact h
      simp only [patchGo, Option.bind_eq_bind, Option.bind_eq_some] at hp
      obtain ⟨r1, hr1, hp2⟩ := hp
      cases r1 with
      | error e => simp at hp2
      | ok val1 =>
        obtain ⟨f1, t1⟩ := val1
        simp only [Bool.false_eq_true, if_false, Option.pure_def, Option.some.injEq,
          Except.ok.injEq, Prod.mk.injEq] at hp2
        obtain ⟨h1, -⟩ := hp2
        rw [← h1]
        exact ihB dfs acc accJ f1 t1 hnd hsp hflds hdisj hacc hr1
    refine ⟨?_, ?_, partG, partB, partC, partD, partE⟩
    · intro dfs fs hgo hc
      simp only [constructFields, Option.bind_eq_bind, Option.bind_eq_some] at hc
      obtain ⟨r, hr, hc2⟩ := hc
      cases r with
      | error e => simp at hc2
      | ok val =>
        obtain ⟨f0, t0⟩ := val
        simp only [Option.pure_def, Option.some.injEq] at hc2
        subst hc2
        have := ihF dfs [] [] f0 t0 hgo (fun k _ => rfl) ⟨1, rfl⟩ hr
        simpa using this
    · intro dfs acc accJ out tr hgo hdisj hacc hp
      exact ihG dfs acc accJ out tr hgo hdisj hacc hp

/-- **C3** (amended).  Round-trip: for every composite JSON value `D` — a
keyed object whose fields are JSON values (scalars, arrays, nested objects),
with no `undefined` field values, no duplicate keys, and no `'.'` inside any
key at any depth — constructing a Tree from `D` (the constructor runs
`patch(D)` on an empty observer, src/observer.ts:64-95, 978-998, 183-277) and
calling `json()` on it (src/observer.ts:1004-1053) returns a value deep-equal
to `D`, with key iteration order preserved: whenever the fueled construction
succeeds, the rendered json is exactly `D` (existence at some fuel, and every
successful rendering at any fuel agrees).  The dot-free proviso is necessary:
`patch` routes non-object fields through `this.set(key, value)`, which
re-splits the key on `'.'` and stores a dotted key as a nested record (see the
counterexample `{"a.b": 1}`). -/
theorem c3_construct_json_roundtrip (dfs : List (String × JVal)) (f : Nat)
    (fs : List (String × IVal))
    (hgood : GoodJ (.obj dfs))
    (hc : constructFields f (.obj dfs) = some fs) :
    (∃ g, jsonIVal g (.sub "" fs) = some (.obj dfs)) ∧
    ∀ g out, jsonIVal g (.sub "" fs) = some out → out = .obj dfs := by
  obtain ⟨g0, hg0⟩ := (c3_main f).1 dfs fs hgood hc
  constructor
  · exact ⟨g0 + 1, by simp [jsonIVal, hg0]⟩
  · intro g out hout
    cases g with
    | zero => simp [jsonIVal] at hout
    | succ g =>
      simp only [jsonIVal, Option.map_eq_some'] at hout
      obtain ⟨a, ha, rfl⟩ := hout
      have h1 := (jsonMono g).2.1 fs a ha (max g g0) (by omega)
      have h2 := (jsonMono g0).2.1 fs dfs hg0 (max g g0) (by omega)
      rw [h1] at h2
      simp_all

/-- Witness for C3 at a concrete composite: `{a: 1, b: [2, "x"], c: {d: true}}`
constructs, and its stored fields render back to exactly the input object. -/
theorem c3_construct_json_roundtrip_witness :
    constructFields 20
        (.obj [("a", .num 1), ("b", .arr [.num 2, .str "x"]),
               ("c", .obj [("d", .bool true)])]) =
      some [("a", .prim (.num 1)),
            ("b", .iarr [.eprim (.num 2), .eprim (.str "x")]),
            ("c", .sub "c" [("d", .prim (.bool true))])] ∧
    (∃ g, jsonIVal g
        (.sub "" [("a", .prim (.num 1)),
                  ("b", .iarr [.eprim (.num 2), .eprim (.str "x")]),
                  ("c", .sub "c" [("d", .prim (.bool true))])]) =
      some (.obj [("a", .num 1), ("b", .arr [.num 2, .str "x"]),
                  ("c", .obj [("d", .bool true)])])) ∧
    ∀ g out, jsonIVal g
        (.sub "" [("a", .prim (.num 1)),
                  ("b", .iarr [.eprim (.num 2), .eprim (.str "x")]),
                  ("c", .sub "c" [("d", .prim (.bool true))])]) = some out →
      out = .obj [("a", .num 1), ("b", .arr [.num 2, .str "x"]),
                  ("c", .obj [("d", .bool true)])] := by
  refine ⟨rfl, c3_construct_json_roundtrip
    [("a", .num 1), ("b", .arr [.num 2, .str "x"]), ("c", .obj [("d", .bool true)])]
    20
    [("a", .prim (.num 1)), ("b", .iarr [.eprim (.num 2), .eprim (.str "x")]),
     ("c", .sub "c" [("d", .prim (.bool true))])]
    ?_ rfl⟩
  refine GoodJ.obj _ (by decide) (by decide) ?_
  intro x hx
  simp only [List.mem_cons, List.not_mem_nil, or_false] at hx
  rcases hx with rfl | rfl | rfl
  · exact GoodJ.scal _ trivial
  · refine GoodJ.arr _ ?_
    intro y hy
    simp only [List.mem_cons, List.not_mem_nil, or_false] at hy
    rcases hy with rfl | rfl
    · exact GoodElemJ.notObj _ trivial
    · exact GoodElemJ.notObj _ trivial
  · refine GoodJ.obj _ (by decide) (by decide) ?_
    intro y hy
    simp only [List.mem_cons, List.not_mem_nil, or_false] at hy
    rcases hy with rfl
    exact GoodJ.scal _ trivial

/-- Counterexample to C2 as written: on the tree built from
`{items: [{a: 1}]}` (stored as an array with a nested observer element),
`set('items', [{a: 1}])` passes a value deep-equal to the stored json —
`json()` of the stored slot is exactly `[{a: 1}]` — yet `arrayEquals` sees a
nested `Observer` that is never strictly equal to a fresh plain object
(src/utils.ts, observer.ts:385-391), so `set` returns `true` and emits
`items:set` and `*:set`, refuting "returns false and emits no event". -/
theorem c2_deep_equal_set_counterexample :
    jsonIVal 5 (.iarr [.eobs [("a", .prim (.num 1))]]) =
      some (.arr [.obj [("a", .num 1)]]) ∧
    setTop 60 [("items", .iarr [.eobs [("a", .prim (.num 1))]])] "items"
        (.arr [.obj [("a", .num 1)]]) false false =
      some (.ok ([("items", .iarr [.eobs [("a", .prim (.num 1))]])], true,
        [Evt.eSet "items" (.arr [.obj [("a", .num 1)]])
           (.arr [.obj [("a", .num 1)]]) false,
         Evt.wSet "items" (.arr [.obj [("a", .num 1)]])
           (.arr [.obj [("a", .num 1)]]) false])) ∧
    (true, [Evt.eSet "items" (.arr [.obj [("a", .num 1)]])
              (.arr [.obj [("a", .num 1)]]) false,
            Evt.wSet "items" (.arr [.obj [("a", .num 1)]])
              (.arr [.obj [("a", .num 1)]]) false]) ≠
      (false, ([] : List Evt)) := by
  refine ⟨rfl, rfl, by simp⟩

theorem scalarEq_refl_flat (v : JVal)
    (h : match v with | .arr _ => False | .obj _ => False | _ => True) :
    scalarEq v v = true := by
  cases v <;> simp [scalarEq] at h ⊢

theorem jsonElems_length : ∀ g es xs, jsonElems g es = some xs →
    xs.length = es.length := by
  intro g
  induction g with
  | zero => intro es xs h; simp [jsonElems] at h
  | succ g ih =>
    intro es xs h
    cases es with
    | nil =>
      simp only [jsonElems, Option.some.injEq] at h
      simp [← h]
    | cons e rest =>
      simp only [jsonElems, Option.bind_eq_bind, Option.bind_eq_some, Option.pure_def,
        Option.some.injEq] at h
      obtain ⟨je, hje, jr, hjr, rfl⟩ := h
      simp [ih rest jr hjr]

theorem arrayEqualsRaw_true : ∀ f : Nat,
    (∀ ys out, (∀ y ∈ ys, GoodRaw y) → arrayEqualsRaw f ys ys = some out →
      out = true) ∧
    (∀ ys out, (∀ y ∈ ys, GoodRaw y) → arrayEqualsRawL f ys ys = some out →
      out = true) := by
  intro f
  induction f with
  | zero =>
    constructor <;> intro ys out _ h <;> simp [arrayEqualsRaw, arrayEqualsRawL] at h
  | succ f ih =>
    obtain ⟨ihR, ihL⟩ := ih
    have partL : ∀ ys out, (∀ y ∈ ys, GoodRaw y) →
        arrayEqualsRawL (f + 1) ys ys = some out → out = true := by
      intro ys out hg h
      cases ys with
      | nil =>
        simp only [arrayEqualsRawL, Option.some.injEq] at h
        exact h.symm
      | cons a as =>
        have hga : GoodRaw a := hg a (by simp)
        have hgr : ∀ y ∈ as, GoodRaw y := fun y hy => hg y (by simp [hy])
        cases a with
        | arr bs =>
          have hbs : ∀ y ∈ bs, GoodRaw y := by
            cases hga with
            | flat _ hh => exact hh.elim
            | arr _ hh => exact hh
          simp only [arrayEqualsRawL, Option.bind_eq_bind, Option.bind_eq_some] at h
          obtain ⟨r, hr, h2⟩ := h
          have := ihR bs r hbs hr
          subst this
          simp only [if_true] at h2
          exact ihL as out hgr h2
        | null =>
          simp only [arrayEqualsRawL, scalarEq, if_true] at h
          exact ihL as out hgr h
        | undef =>
          simp only [arrayEqualsRawL, scalarEq, if_true] at h
          exact ihL as out hgr h
        | bool b =>
          simp only [arrayEqualsRawL] at h
          rw [scalarEq_refl_flat (.bool b) trivial] at h
          simp only [if_true] at h
          exact ihL as out hgr h
        | num n =>
          simp only [arrayEqualsRawL] at h
          rw [scalarEq_refl_flat (.num n) trivial] at h
          simp only [if_true] at h
          exact ihL as out hgr h
        | str s =>
          simp only [arrayEqualsRawL] at h
          rw [scalarEq_refl_flat (.str s) trivial] at h
          simp only [if_true] at h
          exact ihL as out hgr h
        | obj gs =>
          cases hga with
          | flat _ hh => exact hh.elim
    refine ⟨?_, partL⟩
    intro ys out hg h
    simp only [arrayEqualsRaw, ne_eq, not_true_eq_false, if_false, ite_false] at h
    simpa using ihL ys out hg (by simpa using h)

theorem arrayEqualsVE_true : ∀ f : Nat,
    (∀ xs es out, (∀ e ∈ es, GoodElem e) → (∃ g, jsonElems g es = some xs) →
      arrayEqualsVE f xs es = some out → out = true) ∧
    (∀ xs es out, (∀ e ∈ es, GoodElem e) → (∃ g, jsonElems g es = some xs) →
      arrayEqualsVEL f xs es = some out → out = true) := by
  intro f
  induction f with
  | zero =>
    constructor <;> intro xs es out _ _ h <;>
      simp [arrayEqualsVE, arrayEqualsVEL] at h
  | succ f ih =>
    obtain ⟨ihR, ihL⟩ := ih
    have partL : ∀ xs es out, (∀ e ∈ es, GoodElem e) →
        (∃ g, jsonElems g es = some xs) →
        arrayEqualsVEL (f + 1) xs es = some out → out = true := by
      intro xs es out hge hj h
      obtain ⟨g, hgj⟩ := hj
      cases g with
      | zero => simp [jsonElems] at hgj
      | succ g =>
        cases es with
        | nil =>
          simp only [jsonElems, Option.some.injEq] at hgj
          subst hgj
          simp only [arrayEqualsVEL, Option.some.injEq] at h
          exact h.symm
        | cons e er =>
          have hgee : GoodElem e := hge e (by simp)
          have hger : ∀ x ∈ er, GoodElem x := fun x hx => hge x (by simp [hx])
          simp only [jsonElems, Option.bind_eq_bind, Option.bind_eq_some, Option.pure_def,
            Option.some.injEq] at hgj
          obtain ⟨je, hje, jr, hjr, rfl⟩ := hgj
          cases e with
          | eobs cfs => cases hgee
          | eraw v =>
            cases hgee with
            | raw bs hbs =>
              have hjev : je = .arr bs := by
                cases g with
                | zero => simp [jsonElem] at hje
                | succ g => simpa [jsonElem] using hje.symm
              subst hjev
              simp only [arrayEqualsVEL, Option.bind_eq_bind, Option.bind_eq_some] at h
              obtain ⟨r, hr, h2⟩ := h
              have := (arrayEqualsRaw_true f).1 bs r hbs hr
              subst this
              simp only [if_true] at h2
              exact ihL jr er out hger ⟨g, hjr⟩ h2
          | eprim p =>
            have hjep : je = p := by
              cases g with
              | zero => simp [jsonElem] at hje
              | succ g => simpa [jsonElem] using hje.symm
            subst hjep
            have hflat : match je with | .arr _ => False | .obj _ => False | _ => True := by
              cases hgee with
              | pr _ hh => cases je <;> first | exact hh | exact hh.elim
            have hrest : arrayEqualsVEL f jr er = some out → out = true :=
              fun hh => ihL jr er out hger ⟨g, hjr⟩ hh
            cases je with
            | null =>
              simp only [arrayEqualsVEL, scalarEq, if_true] at h
              exact hrest h
            | undef =>
              simp only [arrayEqualsVEL, scalarEq, if_true] at h
              exact hrest h
            | bool b =>
              simp only [arrayEqualsVEL] at h
              rw [scalarEq_refl_flat (.bool b) trivial] at h
              simp only [if_true] at h
              exact hrest h
            | num n =>
              simp only [arrayEqualsVEL] at h
              rw [scalarEq_refl_flat (.num n) trivial] at h
              simp only [if_true] at h
              exact hrest h
            | str s =>
              simp only [arrayEqualsVEL] at h
              rw [scalarEq_refl_flat (.str s) trivial] at h
              simp only [if_true] at h
              exact hrest h
            | arr xs0 => exact hflat.elim
            | obj fs0 => exact hflat.elim
    refine ⟨?_, partL⟩
    intro xs es out hge hj h
    obtain ⟨g, hgj⟩ := hj
    have hlen : xs.length = es.length := jsonElems_length g es xs hgj
    simp only [arrayEqualsVE, hlen, ne_eq, not_true_eq_false, if_false, ite_false] at h
    exact ihL xs es out hge ⟨g, hgj⟩ h

theorem jsonFields_keys : ∀ g fs out, jsonFields g fs = some out →
    out.map Prod.fst = fs.map Prod.fst := by
  intro g
  induction g with
  | zero => intro fs out h; simp [jsonFields] at h
  | succ g ih =>
    intro fs out h
    cases fs with
    | nil =>
      simp only [jsonFields, Option.some.injEq] at h
      simp [← h]
    | cons kv rest =>
      obtain ⟨k, v⟩ := kv
      simp only [jsonFields, Option.bind_eq_bind, Option.bind_eq_some, Option.pure_def,
        Option.some.injEq] at h
      obtain ⟨jv, hjv, jr, hjr, rfl⟩ := h
      simp [ih rest jr hjr]

theorem jsonFields_lookup : ∀ g fs out, jsonFields g fs = some out →
    ∀ k cur, lookupF fs k = some cur →
      ∃ jv, lookupJ out k = some jv ∧ ∃ g2, jsonIVal g2 cur = some jv := by
  intro g
  induction g with
  | zero => intro fs out h; simp [jsonFields] at h
  | succ g ih =>
    intro fs out h k cur hlk
    cases fs with
    | nil => simp [lookupF] at hlk
    | cons kv rest =>
      obtain ⟨k0, v0⟩ := kv
      simp only [jsonFields, Option.bind_eq_bind, Option.bind_eq_some, Option.pure_def,
        Option.some.injEq] at h
      obtain ⟨jv0, hjv0, jr, hjr, rfl⟩ := h
      by_cases hk : k0 = k
      · subst hk
        simp [lookupF] at hlk
        subst hlk
        exact ⟨jv0, by simp [lookupJ], g, hjv0⟩
      · simp only [lookupF, if_neg hk] at hlk
        obtain ⟨jv, hl, hj⟩ := ih rest jr hjr k cur hlk
        exact ⟨jv, by simp [lookupJ, hk, hl], hj⟩

theorem jsonFields_lookupJ : ∀ g fs out, jsonFields g fs = some out →
    ∀ k jv, lookupJ out k = some jv →
      ∃ cur, lookupF fs k = some cur ∧ ∃ g2, jsonIVal g2 cur = some jv := by
  intro g
  induction g with
  | zero => intro fs out h; simp [jsonFields] at h
  | succ g ih =>
    intro fs out h k jv hlk
    cases fs with
    | nil =>
      simp only [jsonFields, Option.some.injEq] at h
      subst h
      simp [lookupJ] at hlk
    | cons kv rest =>
      obtain ⟨k0, v0⟩ := kv
      simp only [jsonFields, Option.bind_eq_bind, Option.bind_eq_some, Option.pure_def,
        Option.some.injEq] at h
      obtain ⟨jv0, hjv0, jr, hjr, rfl⟩ := h
      by_cases hk : k0 = k
      · subst hk
        simp [lookupJ] at hlk
        subst hlk
        exact ⟨v0, by simp [lookupF], g, hjv0⟩
      · simp only [lookupJ, if_neg hk] at hlk
        obtain ⟨cur, hl, hj⟩ := ih rest jr hjr k jv hlk
        exact ⟨cur, by simp [lookupF, hk, hl], hj⟩

theorem lookupF_mem : ∀ (fs : List (String × IVal)) k v,
    lookupF fs k = some v → (k, v) ∈ fs := by
  intro fs
  induction fs with
  | nil => intro k v h; simp [lookupF] at h
  | cons kv rest ih =>
    intro k v h
    obtain ⟨k0, v0⟩ := kv
    by_cases hk : k0 = k
    · subst hk
      simp [lookupF] at h
      subst h
      exact List.mem_cons_self _ _
    · simp only [lookupF, if_neg hk] at h
      exact List.mem_cons_of_mem _ (ih k v h)

theorem mem_keys_lookupF : ∀ (fs : List (String × IVal)) k,
    k ∈ fs.map Prod.fst → ∃ v, lookupF fs k = some v := by
  intro fs
  induction fs with
  | nil => intro k h; simp at h
  | cons kv rest ih =>
    intro k h
    obtain ⟨k0, v0⟩ := kv
    by_cases hk : k0 = k
    · subst hk
      exact ⟨v0, by simp [lookupF]⟩
    · simp only [List.map_cons, List.mem_cons] at h
      rcases h with h | h
      · exact absurd h.symm hk
      · obtain ⟨v, hv⟩ := ih k h
        exact ⟨v, by simp [lookupF, hk, hv]⟩

theorem lookupJ_of_mem_nodup : ∀ (vfs : List (String × JVal)) k vk,
    (vfs.map Prod.fst).Nodup → (k, vk) ∈ vfs → lookupJ vfs k = some vk := by
  intro vfs
  induction vfs with
  | nil => intro k vk _ h; simp at h
  | cons kv rest ih =>
    intro k vk hnd hm
    obtain ⟨k0, v0⟩ := kv
    simp only [List.map_cons, List.nodup_cons] at hnd
    simp only [List.mem_cons] at hm
    rcases hm with hm | hm
    · obtain ⟨rfl, rfl⟩ := Prod.mk.inj hm.symm
      simp [lookupJ]
    · have hne : k0 ≠ k := by
        intro he
        subst he
        exact hnd.1 (List.mem_map_of_mem Prod.fst hm)
      simp [lookupJ, hne, ih k vk hnd.2 hm]

theorem jsonIVal_shape (g : Nat) (cur : IVal) (V : JVal)
    (h : jsonIVal g cur = some V) :
    (∃ v, cur = .prim v ∧ V = v) ∨
    (∃ q sfs vfs g2, cur = .sub q sfs ∧ V = .obj vfs ∧ jsonFields g2 sfs = some vfs) ∨
    (∃ es xs g2, cur = .iarr es ∧ V = .arr xs ∧ jsonElems g2 es = some xs) := by
  cases g with
  | zero => simp [jsonIVal] at h
  | succ g =>
    cases cur with
    | prim p =>
      simp only [jsonIVal, Option.some.injEq] at h
      exact .inl ⟨p, rfl, h.symm⟩
    | sub q sfs =>
      simp only [jsonIVal, Option.map_eq_some'] at h
      obtain ⟨a, ha, rfl⟩ := h
      exact .inr (.inl ⟨q, sfs, a, g, rfl, rfl, ha⟩)
    | iarr es =>
      simp only [jsonIVal, Option.map_eq_some'] at h
      obtain ⟨a, ha, rfl⟩ := h
      exact .inr (.inr ⟨es, a, g, rfl, rfl, ha⟩)

theorem c2_noop_main : ∀ f : Nat,
    (∀ p fs key path cur V remote out,
      lookupF fs key = some cur → GoodIV cur →
      (∃ g, jsonIVal g cur = some V) →
      setFinal f (.wsub p fs) key path V false remote = some (.ok out) →
      out = (.wsub p fs, false, [])) ∧
    (∀ p fs key path cur V remote out,
      lookupF fs key = some cur → GoodIV cur →
      (∃ g, jsonIVal g cur = some V) →
      setW f (.wsub p fs) [key] path V false remote = some (.ok out) →
      out = (.wsub p fs, false, [])) ∧
    (∀ sp fields ns vfs path out,
      (∀ n ∈ ns, splitPath n = [n] ∧ ∃ cur, lookupF fields n = some cur ∧ GoodIV cur ∧
        ∃ jv, lookupJ vfs n = some jv ∧ ∃ g, jsonIVal g cur = some jv) →
      diffPass1 f sp fields ns vfs path = some (.ok out) →
      out = (fields, false, [])) ∧
    (∀ sp fields vfs path remote out,
      (∀ x ∈ vfs, splitPath x.1 = [x.1] ∧ ∃ cur, lookupF fields x.1 = some cur ∧ GoodIV cur ∧
        ∃ g, jsonIVal g cur = some x.2) →
      diffPass2 f sp fields vfs path remote = some (.ok out) →
      out = (fields, false, [])) := by
  intro f
  induction f with
  | zero =>
    refine ⟨?_, ?_, ?_, ?_⟩ <;> intros <;>
      simp_all [setFinal, setW, diffPass1, diffPass2]
  | succ f ih =>
    obtain ⟨ihS, ihW, ihD1, ihD2⟩ := ih
    have partS : ∀ p fs key path cur V remote out,
        lookupF fs key = some cur → GoodIV cur →
        (∃ g, jsonIVal g cur = some V) →
        setFinal (f + 1) (.wsub p fs) key path V false remote = some (.ok out) →
        out = (.wsub p fs, false, []) := by
      intro p fs key path cur V remote out hlk hgood hjson hs
      obtain ⟨g, hj⟩ := hjson
      have hhk : hasK fs key = true := by simp [hasK, hlk]
      rcases jsonIVal_shape g cur V hj with ⟨v, rfl, rfl⟩ |
        ⟨q, sfs, vfs, g2, rfl, rfl, hflds⟩ | ⟨es, xs, g2, rfl, rfl, hels⟩
      · have hsc : IsScalar V := by
          cases hgood with
          | prim _ hh => exact hh
        cases V with
        | null =>
          simp only [setFinal, hlk, strictEqIV, scalarEq, Bool.not_false, Bool.and_true,
            if_true, Option.some.injEq, Except.ok.injEq] at hs
          exact hs.symm
        | bool b =>
          simp [setFinal, hlk, strictEqIV, scalarEq] at hs
          exact hs.symm
        | num n =>
          simp [setFinal, hlk, strictEqIV, scalarEq] at hs
          exact hs.symm
        | str s =>
          simp [setFinal, hlk, strictEqIV, scalarEq] at hs
          exact hs.symm
        | undef => exact hsc.elim
        | arr xs0 => exact hsc.elim
        | obj fs0 => exact hsc.elim
      · have hnd : (sfs.map Prod.fst).Nodup := by
          cases hgood with
          | sub _ _ h1 _ _ => exact h1
        have hdot : ∀ k2 ∈ sfs.map Prod.fst, splitPath k2 = [k2] := by
          cases hgood with
          | sub _ _ _ h _ => exact h
        have hgf : ∀ x ∈ sfs, GoodIV x.2 := by
          cases hgood with
          | sub _ _ _ _ h2 => exact h2
        simp only [setFinal, hlk, Option.bind_eq_bind, Option.bind_eq_some] at hs
        obtain ⟨vOld, hvOld, pre, hpre, hs2⟩ := hs
        have hpre2 : pre = Except.ok ((false : Bool), q, sfs, ([] : List Evt)) := by
          simpa using hpre.symm
        subst hpre2
        simp only [Option.bind_eq_bind, Option.bind_eq_some] at hs2
        obtain ⟨r1, hr1, hs3⟩ := hs2
        have hd1 : ∀ n ∈ sfs.map Prod.fst, splitPath n = [n] ∧
            ∃ cur2, lookupF sfs n = some cur2 ∧
            GoodIV cur2 ∧ ∃ jv, lookupJ vfs n = some jv ∧
              ∃ g3, jsonIVal g3 cur2 = some jv := by
          intro n hn
          obtain ⟨cur2, hcur2⟩ := mem_keys_lookupF sfs n hn
          obtain ⟨jv, hjv, hj2⟩ := jsonFields_lookup g2 sfs vfs hflds n cur2 hcur2
          exact ⟨hdot n hn, cur2, hcur2, hgf _ (lookupF_mem sfs n cur2 hcur2), jv, hjv, hj2⟩
        cases r1 with
        | error e => simp at hs3
        | ok val1 =>
          have hv1 := ihD1 q sfs (sfs.map Prod.fst) vfs path val1 hd1 hr1
          subst hv1
          simp only [Option.bind_eq_bind, Option.bind_eq_some] at hs3
          obtain ⟨r2, hr2, hs4⟩ := hs3
          have hd2 : ∀ x ∈ vfs, splitPath x.1 = [x.1] ∧
              ∃ cur2, lookupF sfs x.1 = some cur2 ∧ GoodIV cur2 ∧
              ∃ g3, jsonIVal g3 cur2 = some x.2 := by
            intro x hx
            obtain ⟨k2, vk2⟩ := x
            have hndv : (vfs.map Prod.fst).Nodup := by
              rw [jsonFields_keys g2 sfs vfs hflds]
              exact hnd
            have hlkj : lookupJ vfs k2 = some vk2 :=
              lookupJ_of_mem_nodup vfs k2 vk2 hndv hx
            obtain ⟨cur2, hcur2, hj2⟩ := jsonFields_lookupJ g2 sfs vfs hflds k2 vk2 hlkj
            refine ⟨?_, cur2, hcur2, hgf _ (lookupF_mem sfs k2 cur2 hcur2), hj2⟩
            exact hdot k2 (by
              rw [← jsonFields_keys g2 sfs vfs hflds]
              exact List.mem_map_of_mem Prod.fst hx)
          cases r2 with
          | error e => simp at hs4
          | ok val2 =>
            have hv2 := ihD2 q sfs vfs path remote val2 hd2 hr2
            subst hv2
            simp only [hhk, if_true, putF_self fs key (.sub q sfs) hlk, Bool.or_self,
              Bool.false_or, Bool.or_false, Bool.false_eq_true, if_false, List.nil_append,
              List.append_nil, Option.pure_def, Option.some.injEq, Except.ok.injEq] at hs4
            exact hs4.symm
      · have hge : ∀ e ∈ es, GoodElem e := by
          cases hgood with
          | iarr _ hh => exact hh
        simp only [setFinal, hlk, Option.bind_eq_bind, Option.bind_eq_some] at hs
        obtain ⟨aeq, haeq, hs2⟩ := hs
        have haq : aeq = true := (arrayEqualsVE_true f).1 xs es aeq hge ⟨g2, hels⟩ haeq
        subst haq
        simp only [Bool.not_false, Bool.and_true, if_true, Option.pure_def,
          Option.some.injEq, Except.ok.injEq] at hs2
        exact hs2.symm
    have partW : ∀ p fs key path cur V remote out,
        lookupF fs key = some cur → GoodIV cur →
        (∃ g, jsonIVal g cur = some V) →
        setW (f + 1) (.wsub p fs) [key] path V false remote = some (.ok out) →
        out = (.wsub p fs, false, []) := by
      intro p fs key path cur V remote out hlk hgood hjson hw
      exact ihS p fs key path cur V remote out hlk hgood hjson hw
    have partD1 : ∀ sp fields ns vfs path out,
        (∀ n ∈ ns, splitPath n = [n] ∧ ∃ cur, lookupF fields n = some cur ∧ GoodIV cur ∧
          ∃ jv, lookupJ vfs n = some jv ∧ ∃ g, jsonIVal g cur = some jv) →
        diffPass1 (f + 1) sp fields ns vfs path = some (.ok out) →
        out = (fields, false, []) := by
      intro sp fields ns vfs path out hinv hd
      cases ns with
      | nil => exact (Except.ok.inj (Option.some.inj hd)).symm
      | cons n ns2 =>
        obtain ⟨hspn, cur, hcur, hgood, jv, hjv, g, hj⟩ := hinv n (by simp)
        have hinv2 : ∀ m ∈ ns2, splitPath m = [m] ∧ ∃ cur2, lookupF fields m = some cur2 ∧
            GoodIV cur2 ∧
            ∃ jv2, lookupJ vfs m = some jv2 ∧ ∃ g2, jsonIVal g2 cur2 = some jv2 :=
          fun m hm => hinv m (by simp [hm])
        have hhj : hasJ vfs n = true := by simp [hasJ, hjv]
        have hgj : getJ vfs n = jv := by simp [getJ, hjv]
        simp only [diffPass1, hhj, Bool.not_true, Bool.false_eq_true, if_false, hgj, hcur,
          hspn, Option.bind_eq_bind, Option.bind_eq_some] at hd
        obtain ⟨ceq, hceq, hd2⟩ := hd
        rcases jsonIVal_shape g cur jv hj with ⟨v, rfl, rfl⟩ |
          ⟨q, sfs, vfs2, g2, rfl, rfl, hflds⟩ | ⟨es, xs, g2, rfl, rfl, hels⟩
        · have hsc : IsScalar jv := by
            cases hgood with
            | prim _ hh => exact hh
          have hceq2 : ceq = true := by
            simp only [equalsIV, strictEqIV, Option.some.injEq] at hceq
            rw [← hceq]
            cases jv with
            | null => rfl
            | bool b => simp [scalarEq]
            | num nn => simp [scalarEq]
            | str s => simp [scalarEq]
            | undef => exact hsc.elim
            | arr xs0 => exact hsc.elim
            | obj fs0 => exact hsc.elim
          subst hceq2
          simp only [Bool.not_true, Bool.false_eq_true, if_false] at hd2
          exact ihD1 sp fields ns2 vfs path out hinv2 hd2
        · have hceq2 : ceq = false := by
            simp only [equalsIV, strictEqIV, Option.some.injEq] at hceq
            exact hceq.symm
          subst hceq2
          simp only [Bool.not_false, if_true, Option.bind_eq_bind, Option.bind_eq_some] at hd2
          obtain ⟨r1, hr1, hd3⟩ := hd2
          cases r1 with
          | error e => simp at hd3
          | ok val1 =>
            have hv1 := ihW sp fields n (path ++ "." ++ n) (.sub q sfs) (.obj vfs2)
              false val1 hcur hgood ⟨g, hj⟩ hr1
            subst hv1
            simp only [Option.bind_eq_bind, Option.bind_eq_some] at hd3
            obtain ⟨r2, hr2, hd4⟩ := hd3
            cases r2 with
            | error e => simp at hd4
            | ok val2 =>
              have hv2 := ihD1 sp fields ns2 vfs path val2 hinv2 hr2
              subst hv2
              simpa using hd4.symm
        · have hge : ∀ e ∈ es, GoodElem e := by
            cases hgood with
            | iarr _ hh => exact hh
          have hceq2 : ceq = true := by
            simp only [equalsIV] at hceq
            exact (arrayEqualsVE_true f).1 xs es ceq hge ⟨g2, hels⟩ hceq
          subst hceq2
          simp only [Bool.not_true, Bool.false_eq_true, if_false] at hd2
          exact ihD1 sp fields ns2 vfs path out hinv2 hd2
    have partD2 : ∀ sp fields vfs path remote out,
        (∀ x ∈ vfs, splitPath x.1 = [x.1] ∧ ∃ cur, lookupF fields x.1 = some cur ∧
          GoodIV cur ∧ ∃ g, jsonIVal g cur = some x.2) →
        diffPass2 (f + 1) sp fields vfs path remote = some (.ok out) →
        out = (fields, false, []) := by
      intro sp fields vfs path remote out hinv hd
      cases vfs with
      | nil => exact (Except.ok.inj (Option.some.inj hd)).symm
      | cons kv rest =>
        obtain ⟨k, vk⟩ := kv
        obtain ⟨hspk, cur, hcur, hgood, g, hj⟩ := hinv (k, vk) (by simp)
        have hinv2 : ∀ x ∈ rest, splitPath x.1 = [x.1] ∧ ∃ cur2, lookupF fields x.1 = some cur2 ∧
            GoodIV cur2 ∧ ∃ g2, jsonIVal g2 cur2 = some x.2 :=
          fun x hx => hinv x (by simp [hx])
        have hhk : hasK fields k = true := by simp [hasK, hcur]
        rcases jsonIVal_shape g cur vk hj with ⟨v, rfl, rfl⟩ |
          ⟨q, sfs, vfs2, g2, rfl, rfl, hflds⟩ | ⟨es, xs, g2, rfl, rfl, hels⟩
        · have hsc : IsScalar vk := by
            cases hgood with
            | prim _ hh => exact hh
          cases vk with
          | undef => exact hsc.elim
          | arr xs0 => exact hsc.elim
          | obj fs0 => exact hsc.elim
          | null =>
            simp only [diffPass2, Bool.false_and, Bool.false_eq_true, if_false, objecty,
              if_true, hhk, hspk, Option.bind_eq_bind, Option.bind_eq_some] at hd
            obtain ⟨r1, hr1, hd3⟩ := hd
            cases r1 with
            | error e => simp at hd3
            | ok val1 =>
              have hv1 := ihW sp fields k (path ++ "." ++ k) (.prim .null) .null
                false val1 hcur hgood ⟨g, hj⟩ hr1
              subst hv1
              simp only [Option.bind_eq_bind, Option.bind_eq_some] at hd3
              obtain ⟨r2, hr2, hd4⟩ := hd3
              cases r2 with
              | error e => simp at hd4
              | ok val2 =>
                have hv2 := ihD2 sp fields rest path remote val2 hinv2 hr2
                subst hv2
                simpa using hd4.symm
          | bool b =>
            simp only [diffPass2, Bool.false_and, Bool.false_eq_true, if_false, objecty,
              hcur, equalsIV, strictEqIV, scalarEq, Option.bind_eq_bind,
              Option.bind_eq_some, Option.some.injEq, beq_self_eq_true] at hd
            obtain ⟨ceq, hceq, hd2⟩ := hd
            subst hceq
            simp only [Bool.not_true, Bool.false_and, Bool.false_eq_true, if_false] at hd2
            exact ihD2 sp fields rest path remote out hinv2 hd2
          | num nn =>
            simp only [diffPass2, Bool.false_and, Bool.false_eq_true, if_false, objecty,
              hcur, equalsIV, strictEqIV, scalarEq, Option.bind_eq_bind,
              Option.bind_eq_some, Option.some.injEq, beq_self_eq_true] at hd
            obtain ⟨ceq, hceq, hd2⟩ := hd
            subst hceq
            simp only [Bool.not_true, Bool.false_and, Bool.false_eq_true, if_false] at hd2
            exact ihD2 sp fields rest path remote out hinv2 hd2
          | str s =>
            simp only [diffPass2, Bool.false_and, Bool.false_eq_true, if_false, objecty,
              hcur, equalsIV, strictEqIV, scalarEq, Option.bind_eq_bind,
              Option.bind_eq_some, Option.some.injEq, beq_self_eq_true] at hd
            obtain ⟨ceq, hceq, hd2⟩ := hd
            subst hceq
            simp only [Bool.not_true, Bool.false_and, Bool.false_eq_true, if_false] at hd2
            exact ihD2 sp fields rest path remote out hinv2 hd2
        · simp only [diffPass2, Bool.false_and, Bool.false_eq_true, if_false, objecty,
            if_true, hhk, hspk, Option.bind_eq_bind, Option.bind_eq_some] at hd
          obtain ⟨r1, hr1, hd3⟩ := hd
          cases r1 with
          | error e => simp at hd3
          | ok val1 =>
            have hv1 := ihW sp fields k (path ++ "." ++ k) (.sub q sfs) (.obj vfs2)
              false val1 hcur hgood ⟨g, hj⟩ hr1
            subst hv1
            simp only [Option.bind_eq_bind, Option.bind_eq_some] at hd3
            obtain ⟨r2, hr2, hd4⟩ := hd3
            cases r2 with
            | error e => simp at hd4
            | ok val2 =>
              have hv2 := ihD2 sp fields rest path remote val2 hinv2 hr2
              subst hv2
              simpa using hd4.symm
        · simp only [diffPass2, Bool.false_and, Bool.false_eq_true, if_false, objecty,
            if_true, hhk, hspk, Option.bind_eq_bind, Option.bind_eq_some] at hd
          obtain ⟨r1, hr1, hd3⟩ := hd
          cases r1 with
          | error e => simp at hd3
          | ok val1 =>
            have hv1 := ihW sp fields k (path ++ "." ++ k) (.iarr es) (.arr xs)
              false val1 hcur hgood ⟨g, hj⟩ hr1
            subst hv1
            simp only [Option.bind_eq_bind, Option.bind_eq_some] at hd3
            obtain ⟨r2, hr2, hd4⟩ := hd3
            cases r2 with
            | error e => simp at hd4
            | ok val2 =>
              have hv2 := ihD2 sp fields rest path remote val2 hinv2 hr2
              subst hv2
              simpa using hd4.symm
    exact ⟨partS, partW, partD1, partD2⟩

theorem setW_walk_noop : ∀ (ks : List String) (F : Nat) (p0 : String)
    (fs0 : List (String × IVal)) (sp : String) (fields : List (String × IVal))
    (key path : String) (cur : IVal) (V : JVal) (remote : Bool)
    (out : WNode × Bool × List Evt),
    walkRecs p0 fs0 ks = some (sp, fields) →
    lookupF fields key = some cur → GoodIV cur →
    (∃ g, jsonIVal g cur = some V) →
    setW F (.wsub p0 fs0) (ks ++ [key]) path V false remote = some (.ok out) →
    out = (.wsub p0 fs0, false, []) := by
  intro ks
  induction ks with
  | nil =>
    intro F p0 fs0 sp fields key path cur V remote out hw hlk hgood hjson hrun
    simp only [walkRecs, Option.some.injEq] at hw
    obtain ⟨rfl, rfl⟩ := Prod.mk.inj hw
    cases F with
    | zero => simp [setW] at hrun
    | succ F =>
      exact (c2_noop_main F).1 p0 fs0 key path cur V remote out hlk hgood hjson hrun
  | cons k rest ih =>
    intro F p0 fs0 sp fields key path cur V remote out hw hlk hgood hjson hrun
    rw [walkRecs] at hw
    cases hlk0 : lookupF fs0 k with
    | none => rw [hlk0] at hw; simp at hw
    | some v =>
      rw [hlk0] at hw
      cases v with
      | prim pv => simp at hw
      | iarr es => simp at hw
      | sub p2 f2 =>
        simp only [] at hw
        cases F with
        | zero => simp [setW] at hrun
        | succ F =>
          cases rest with
          | nil =>
            simp only [List.nil_append] at hw hrun ih
            rw [setW.eq_def] at hrun
            simp [hlk0, Option.bind_eq_some] at hrun
            obtain ⟨r, hr, heq⟩ := hrun
            cases r with
            | error e => simp at heq
            | ok val =>
              have hv := ih F p2 f2 sp fields key path cur V remote val hw hlk
                hgood hjson (by simpa [embedI] using hr)
              subst hv
              have hput : putF fs0 k (unembedI (.wsub p2 f2)) = fs0 := by
                simpa [unembedI] using putF_self fs0 k (.sub p2 f2) hlk0
              simp only [unembedI] at heq
              rw [show putF fs0 k (.sub p2 f2) = fs0 from by
                simpa [unembedI] using hput] at heq
              simpa using heq.symm
            all_goals simp
          | cons r0 rs =>
            rw [setW.eq_def] at hrun
            simp [hlk0, Option.bind_eq_some] at hrun
            obtain ⟨r, hr, heq⟩ := hrun
            cases r with
            | error e => simp at heq
            | ok val =>
              have hv := ih F p2 f2 sp fields key path cur V remote val hw hlk
                hgood hjson (by simpa [embedI] using hr)
              subst hv
              have hput : putF fs0 k (unembedI (.wsub p2 f2)) = fs0 := by
                simpa [unembedI] using putF_self fs0 k (.sub p2 f2) hlk0
              simp only [unembedI] at heq
              rw [show putF fs0 k (.sub p2 f2) = fs0 from by
                simpa [unembedI] using hput] at heq
              simpa using heq.symm
            all_goals simp

/-- **C2** (amended).  In the fragment free of nested-observer array elements,
raw objects, and dotted record keys (stored values are scalar leaves,
sub-records with distinct `'.'`-free keys, and arrays of scalars or
object-free raw arrays — `GoodIV`), `set(P, V)` with `V` deep-equal to the
stored value at `P` (i.e. `V` is the stored slot's own `json()`) and `force`
unset returns `false`, emits no event — neither `<P>:set` nor `*:set` nor any
child event — and leaves the tree unchanged: part 1 for the resolved parent
record and final key (src/observer.ts:328-561), part 2 lifted to the public
`set` over any path whose intermediate segments resolve to sub-records.
Outside this fragment the claim fails: a stored array containing a nested
observer is never `arrayEquals`-equal to a fresh deep-equal value (see the
counterexample), and a record key containing `'.'` makes the diff's recursive
`obj.set(path + '.' + key, ..., true)` re-split the key, mutate the tree and
return true. -/
theorem c2_deep_equal_set_noop_amended :
    (∀ (F : Nat) (p : String) (fs : List (String × IVal)) (key path : String)
       (cur : IVal) (V : JVal) (remote : Bool) (out : WNode × Bool × List Evt),
      lookupF fs key = some cur → GoodIV cur →
      (∃ g, jsonIVal g cur = some V) →
      setFinal F (.wsub p fs) key path V false remote = some (.ok out) →
      out = (.wsub p fs, false, [])) ∧
    (∀ (F : Nat) (root : List (String × IVal)) (P : String) (ks : List String)
       (key sp : String) (fields : List (String × IVal)) (cur : IVal) (V : JVal)
       (remote : Bool) (out : List (String × IVal) × Bool × List Evt),
      splitPath P = ks ++ [key] →
      walkRecs "" root ks = some (sp, fields) →
      lookupF fields key = some cur → GoodIV cur →
      (∃ g, jsonIVal g cur = some V) →
      setTop F root P V false remote = some (.ok out) →
      out = (root, false, [])) := by
  constructor
  · intro F p fs key path cur V remote out hlk hgood hjson hs
    exact (c2_noop_main F).1 p fs key path cur V remote out hlk hgood hjson hs
  · intro F root P ks key sp fields cur V remote out hsplit hw hlk hgood hjson hrun
    simp only [setTop, hsplit, Option.bind_eq_bind, Option.bind_eq_some] at hrun
    obtain ⟨r, hr, heq⟩ := hrun
    cases r with
    | error e => simp at heq
    | ok val =>
      have hv := setW_walk_noop ks F "" root sp fields key P cur V remote val
        hw hlk hgood hjson hr
      subst hv
      simpa using heq.symm

/-- Witness for the amended C2 at a concrete tree
`{a: 1, o: {b: "x"}, arr: [2, [3]]}`: setting `o` to the deep-equal object
`{b: "x"}` succeeds, returns false and emits nothing, leaving the root
fields untouched. -/
theorem c2_deep_equal_set_noop_amended_witness :
    setTop 30
        [("a", .prim (.num 1)), ("o", .sub "o" [("b", .prim (.str "x"))]),
         ("arr", .iarr [.eprim (.num 2), .eraw (.arr [.num 3])])]
        "o" (.obj [("b", .str "x")]) false false =
      some (.ok
        ([("a", .prim (.num 1)), ("o", .sub "o" [("b", .prim (.str "x"))]),
          ("arr", .iarr [.eprim (.num 2), .eraw (.arr [.num 3])])],
         false, [])) := by
  have h := c2_deep_equal_set_noop_amended.2 30
    [("a", .prim (.num 1)), ("o", .sub "o" [("b", .prim (.str "x"))]),
     ("arr", .iarr [.eprim (.num 2), .eraw (.arr [.num 3])])]
    "o" [] "o" ""
    [("a", .prim (.num 1)), ("o", .sub "o" [("b", .prim (.str "x"))]),
     ("arr", .iarr [.eprim (.num 2), .eraw (.arr [.num 3])])]
    (.sub "o" [("b", .prim (.str "x"))]) (.obj [("b", .str "x")]) false
    ([("a", .prim (.num 1)), ("o", .sub "o" [("b", .prim (.str "x"))]),
      ("arr", .iarr [.eprim (.num 2), .eraw (.arr [.num 3])])], false, [])
    rfl rfl rfl
    (by
      refine GoodIV.sub "o" [("b", .prim (.str "x"))] (by decide) (by decide) ?_
      intro x hx
      simp only [List.mem_cons, List.not_mem_nil, or_false] at hx
      subst hx
      exact GoodIV.prim _ trivial)
    ⟨4, rfl⟩ rfl
  exact rfl

/-- Counterexample to C3 as written: for the composite JSON object
`D = {"a.b": 1}` — a perfectly legal JSON value — the constructor's patch
routes the non-object field through `this.set("a.b", 1)`
(src/observer.ts:985-987), and `set` re-splits the key on `'.'`
(src/observer.ts:290), storing `{a: {b: 1}}`; `json()` then returns
`{a: {b: 1}}`, which is not deep-equal to `D`, refuting the unconditional
round trip. -/
theorem c3_dotted_key_counterexample :
    constructFields 30 (.obj [("a.b", .num 1)]) =
      some [("a", .sub "a.b" [("b", .prim (.num 1))])] ∧
    jsonIVal 30 (.sub "" [("a", .sub "a.b" [("b", .prim (.num 1))])]) =
      some (.obj [("a", .obj [("b", .num 1)])]) ∧
    JVal.obj [("a", .obj [("b", .num 1)])] ≠ .obj [("a.b", .num 1)] := by
  refine ⟨rfl, rfl, by simp⟩
